import Mathlib

/-!
Verification development for the company-name deduplication engine of this
repository (`src/engine.py`).

Embedding conventions:
* Python strings are `List Char` (`Chars`), covering the ASCII fragment the
  engine's data lives in; pandas cells that are null/NaN are `Option.none`.
* Python floats are modelled exactly as `ℚ`; every constant is written with
  `mkRat` and all score arithmetic is carried out on integers, so the whole
  pipeline evaluates inside the kernel.
* `process` is modelled without its two network-bound optional steps (web
  verification, enrichment): both are gated by settings flags that default to
  `False` and are `false` in every configuration studied here; neither step
  touches `cluster_id`, `confidence` of the rows studied, or the inputs of
  canonical selection.
* The union-find `find` of the source uses path compression; compression
  rewrites parent pointers toward the root but never changes which root a
  chase reaches, so the embedding chases parents with fuel `parent.length`
  and omits the pointer rewriting.
-/

set_option maxRecDepth 20000

abbrev Chars := List Char

def strOf (s : String) : Chars := s.data

/-- ASCII whitespace as matched by Python's regex class \s and str.strip / str.split. -/
def pySpace (c : Char) : Bool :=
  c = ' ' || c = '\t' || c = '\n' || c = '\r' || c = '\x0b' || c = '\x0c'

/-- Python regex word character \w (ASCII fragment): alphanumeric or underscore. -/
def wordChar (c : Char) : Bool := c.isAlphanum || c = '_'

/-- Python str.strip(): drop leading and trailing whitespace. -/
def pyStrip (s : Chars) : Chars :=
  ((s.dropWhile pySpace).reverse.dropWhile pySpace).reverse

/-- Helper for `collapseWs`: the Bool records whether the previous kept
character position was inside a whitespace run. -/
def collapseAux : Bool → Chars → Chars
  | _, [] => []
  | inRun, c :: cs =>
    if pySpace c then
      if inRun then collapseAux true cs else ' ' :: collapseAux true cs
    else c :: collapseAux false cs

/-- Python re.sub of one or more whitespace characters by a single space:
each maximal whitespace run becomes one ' '. -/
def collapseWs (s : Chars) : Chars := collapseAux false s

/-- Helper for `pySplit`; `acc` holds the current word reversed. -/
def pySplitAux : Chars → Chars → List Chars
  | acc, [] => if acc = [] then [] else [acc.reverse]
  | acc, c :: cs =>
    if pySpace c then
      if acc = [] then pySplitAux [] cs else acc.reverse :: pySplitAux [] cs
    else pySplitAux (c :: acc) cs

/-- Python str.split() with no argument: split on whitespace runs, no empty tokens. -/
def pySplit (s : Chars) : List Chars := pySplitAux [] s

/-- Python " ".join. -/
def joinSpace : List Chars → Chars
  | [] => []
  | [w] => w
  | w :: ws => w ++ ' ' :: joinSpace ws

def insertLenDesc (x : Chars) : List Chars → List Chars
  | [] => [x]
  | y :: ys => if y.length > x.length then y :: insertLenDesc x ys else x :: y :: ys

/-- Python sorted(key=len, reverse=True): stable, length descending. -/
def sortLenDesc (l : List Chars) : List Chars := l.foldr insertLenDesc []

def insertLenAsc (x : Chars) : List Chars → List Chars
  | [] => [x]
  | y :: ys => if y.length < x.length then y :: insertLenAsc x ys else x :: y :: ys

/-- Python sorted(key=len): stable, length ascending. -/
def sortLenAsc (l : List Chars) : List Chars := l.foldr insertLenAsc []

/-- Python string comparison: lexicographic by code point. -/
def strLt : Chars → Chars → Bool
  | [], [] => false
  | [], _ :: _ => true
  | _ :: _, [] => false
  | a :: as, b :: bs => if a = b then strLt as bs else decide (a < b)

def insertLex (x : Chars) : List Chars → List Chars
  | [] => [x]
  | y :: ys => if strLt y x then y :: insertLex x ys else x :: y :: ys

/-- Python sorted() on a list of strings (stable, lexicographic). -/
def sortLex (l : List Chars) : List Chars := l.foldr insertLex []

/-!  Jaro-Winkler similarity.

Modelled from the external `jellyfish` library's `jaro_winkler_similarity`
(with `long_tolerance=False`), which `src/engine.py` imports; jellyfish is a
dependency, not code of this repository.  Arithmetic is exact rational
arithmetic over a common integer denominator instead of IEEE floats. -/

/-- First index `j`, scanning `steps` positions from `j0`, whose flag is unset
and whose character in `yang` equals `c`. -/
def jwFindMatch (yang : Chars) (flags : List Bool) (c : Char) : Nat → Nat → Option Nat
  | _, 0 => none
  | j, steps + 1 =>
    if flags.getD j true = false && yang.getD j ' ' = c then some j
    else jwFindMatch yang flags c (j + 1) steps

structure JwFlags where
  ying : List Bool
  yang : List Bool
  common : Nat

/-- Matching loop of jellyfish: for each position of `ying`, flag the first
unflagged equal character of `yang` within the search range. -/
def jwMatchFold (ying yang : Chars) (sr : Nat) : JwFlags :=
  (List.range ying.length).foldl
    (fun st i =>
      let low := if i > sr then i - sr else 0
      let hi := if i + sr < yang.length then i + sr else yang.length - 1
      match jwFindMatch yang st.yang (ying.getD i ' ') low (hi + 1 - low) with
      | some j => { ying := st.ying.set i true, yang := st.yang.set j true, common := st.common + 1 }
      | none => st)
    { ying := List.replicate ying.length false, yang := List.replicate yang.length false, common := 0 }

/-- First index at or after `j` (scanning `steps` positions) whose flag is set. -/
def jwNextFlag (flags : List Bool) : Nat → Nat → Option Nat
  | _, 0 => none
  | j, steps + 1 => if flags.getD j false then some j else jwNextFlag flags (j + 1) steps

/-- Transposition count of jellyfish (before the final halving): walk the
flagged positions of both strings in order and count mismatching pairs. -/
def jwTransFold (ying yang : Chars) (yingF yangF : List Bool) : Nat :=
  ((List.range ying.length).foldl
    (fun (st : Nat × Nat) i =>
      if yingF.getD i false then
        match jwNextFlag yangF st.1 (yang.length - st.1) with
        | some j => (j + 1, st.2 + if ying.getD i ' ' = yang.getD j ' ' then 0 else 1)
        | none => st
      else st)
    (0, 0)).2 / 2

/-- Length of the common leading run of the two strings, capped at `bound`. -/
def jwPrefLen : Chars → Chars → Nat → Nat
  | a :: as, b :: bs, bound + 1 => if a = b then jwPrefLen as bs bound + 1 else 0
  | _, _, _ => 0

/-- jellyfish `jaro_winkler_similarity`: the Jaro weight
`(m/len1 + m/len2 + (m-t)/m) / 3`, boosted by the common prefix (capped at 4)
when it exceeds 0.7.  The weight is assembled over the common denominator
`3*len1*len2*m`; the boost `w + p*(1-w)/10` becomes `(10*W + p*(D-W)) / (10*D)`. -/
def jaroWinkler (s1 s2 : Chars) : ℚ :=
  let len1 := s1.length
  let len2 := s2.length
  if len1 = 0 ∨ len2 = 0 then 0
  else
    let sr := max len1 len2 / 2 - 1
    let mst := jwMatchFold s1 s2 sr
    if mst.common = 0 then 0
    else
      let t := jwTransFold s1 s2 mst.ying mst.yang
      let wNum : Int := mst.common * mst.common * len2 + mst.common * mst.common * len1 +
        ((mst.common : Int) - t) * len1 * len2
      let wDen : Int := 3 * len1 * len2 * mst.common
      if 10 * wNum > 7 * wDen then
        let p := jwPrefLen s1 s2 (min (min len1 len2) 4)
        if p = 0 then Rat.divInt wNum wDen
        else Rat.divInt (10 * wNum + p * (wDen - wNum)) (10 * wDen)
      else Rat.divInt wNum wDen

/-!  Engine construction (`CompanyDedupEngine.__init__`). -/

/-- Recognised keys of the settings dict; `none` means the key is absent and
the `.get` default applies. -/
structure Settings where
  hard : Option ℚ := none
  soft : Option ℚ := none
  no_subsidiary_fold : Option Bool := none
  web_search : Option Bool := none
  enrichment : Option Bool := none
  add_map : Option (List (Chars × Chars)) := none

/-- Legal suffix literals in source order (the constructor sorts them). -/
def suffixLiterals : List Chars :=
  ["PRIVATE LIMITED".data, "PVT LTD".data, "PVT. LTD.".data, "LTD".data,
   "LIMITED".data, "LLC".data, "LLP".data, "PLC".data,
   "INC".data, "INCORPORATED".data, "CO".data, "CO.".data,
   "COMPANY".data, "PTE LTD".data,
   "GMBH".data, "GMBH & CO KG".data, "B.V.".data, "A/S".data,
   "S.A. DE C.V.".data, "SP Z O O".data, "SP ZOO".data,
   "S R L".data, "S.R.L.".data, "S A".data, "S.P.A.".data, "SA DE CV".data]

/-- Country token literals in source order (the constructor sorts them). -/
def countryLiterals : List Chars :=
  ["INDIA".data, "USA".data, "UAE".data, "CHINA".data, "JAPAN".data,
   "KOREA".data, "SINGAPORE".data, "MALAYSIA".data, "CANADA".data,
   "BRAZIL".data, "GERMANY".data, "FRANCE".data, "ITALY".data,
   "UNITED STATES".data, "UNITED KINGDOM".data, "HONG KONG".data,
   "NEW ZEALAND".data, "SOUTH AFRICA".data, "SAUDI ARABIA".data,
   "COTE DIVOIRE".data]

def defaultAcronymMap : List (Chars × Chars) :=
  [("IBM INDIA".data, "IBM".data),
   ("TCS".data, "TATA CONSULTANCY SERVICES".data),
   ("HDFC".data, "HDFC BANK".data)]

/-- Python dict.update of one key/value pair: replace in place if the key
exists, otherwise append. -/
def updateEntry (m : List (Chars × Chars)) (kv : Chars × Chars) : List (Chars × Chars) :=
  if m.any (fun e => e.1 = kv.1) then
    m.map (fun e => if e.1 = kv.1 then (e.1, kv.2) else e)
  else m ++ [kv]

structure CompanyDedupEngine where
  hard_threshold : ℚ
  soft_threshold : ℚ
  no_subsidiary_fold : Bool
  enable_web_search : Bool
  enable_enrichment : Bool
  suffixes : List Chars
  countries : List Chars
  acronym_map : List (Chars × Chars)

/-- `CompanyDedupEngine.__init__`: thresholds from settings with defaults 0.90
and 0.85, suffix and country lists sorted by length descending (stable, as
Python's sorted with reverse=True), acronym map = defaults updated with the
caller's overrides. -/
def CompanyDedupEngine.init (settings : Settings) : CompanyDedupEngine where
  hard_threshold := settings.hard.getD (mkRat 90 100)
  soft_threshold := settings.soft.getD (mkRat 85 100)
  no_subsidiary_fold := settings.no_subsidiary_fold.getD false
  enable_web_search := settings.web_search.getD false
  enable_enrichment := settings.enrichment.getD false
  suffixes := sortLenDesc suffixLiterals
  countries := sortLenDesc countryLiterals
  acronym_map := (settings.add_map.getD []).foldl updateEntry defaultAcronymMap

/-!  Normalizer. -/

/-- Characters the mask of `normalize` keeps: the regex keeps \w, \s, '&',
'/' and '-', every other character becomes a space. -/
def keepChar (c : Char) : Bool :=
  wordChar c || pySpace c || c = '&' || c = '/' || c = '-'

/-- `CompanyDedupEngine.normalize`: null/NaN (`none`) and the empty string map
to the empty string; otherwise upper-case, replace every character not kept by
the mask with a space, collapse whitespace runs and strip. -/
def CompanyDedupEngine.normalize (raw : Option Chars) : Chars :=
  match raw with
  | none => []
  | some s =>
    if s = [] then []
    else pyStrip (collapseWs ((s.map Char.toUpper).map (fun c => if keepChar c then c else ' ')))

/-!  Suffix stripping and subsidiary folding. -/

/-- Regex word boundary of the pattern at position `p` of `name`: the
word-character statuses on the two sides differ (outside the string counts as
non-word). -/
def boundaryAt (name : Chars) (p : Nat) : Bool :=
  (if p = 0 then false else wordChar (name.getD (p - 1) ' ')) != wordChar (name.getD p ' ')

/-- One re.sub of pattern (word boundary, literal suffix, end of string) by
the empty string, followed by str.strip(). -/
def stripStep (name sfx : Chars) : Chars :=
  if sfx.isSuffixOf name then
    if boundaryAt name (name.length - sfx.length) then
      pyStrip (name.take (name.length - sfx.length))
    else name
  else name

/-- One full for-loop over the suffix list. -/
def stripPass (sfxs : List Chars) (name : Chars) : Chars := sfxs.foldl stripStep name

/-- The while-loop of `strip_suffixes` / `fold_subsidiaries` with explicit
fuel: run passes until a pass changes nothing.  A changing pass strictly
shortens the name (proved below), so fuel `name.length + 1` reaches the
fixpoint the Python loop returns. -/
def stripLoopFuel (sfxs : List Chars) : Nat → Chars → Chars
  | 0, name => name
  | fuel + 1, name =>
    let name' := stripPass sfxs name
    if name' = name then name else stripLoopFuel sfxs fuel name'

def stripLoop (sfxs : List Chars) (name : Chars) : Chars :=
  stripLoopFuel sfxs (name.length + 1) name

/-- `CompanyDedupEngine.strip_suffixes`. -/
def CompanyDedupEngine.strip_suffixes (eng : CompanyDedupEngine) (name : Chars) : Chars :=
  stripLoop eng.suffixes name

/-- `CompanyDedupEngine.fold_subsidiaries`. -/
def CompanyDedupEngine.fold_subsidiaries (eng : CompanyDedupEngine) (name : Chars) : Chars :=
  if eng.no_subsidiary_fold then name else stripLoop eng.countries name

/-- First value of the assoc list whose key is `k` (Python dict lookup). -/
def lookupMap (m : List (Chars × Chars)) (k : Chars) : Option Chars :=
  (m.find? (fun e => decide (e.1 = k))).map (fun e => e.2)

/-- `CompanyDedupEngine.get_base_name`: normalized form plus base name
(suffix-stripped, subsidiary-folded, acronym-substituted). -/
def CompanyDedupEngine.get_base_name (eng : CompanyDedupEngine) (name : Option Chars) :
    Chars × Chars :=
  let norm := CompanyDedupEngine.normalize name
  let base := eng.fold_subsidiaries (eng.strip_suffixes norm)
  match lookupMap eng.acronym_map base with
  | some v => (norm, v)
  | none => (norm, base)

/-- `CompanyDedupEngine.get_block_key`: "NONE" for an empty base name,
otherwise first character, length // 5, and first whitespace token joined by
underscores. -/
def CompanyDedupEngine.get_block_key (base_name : Chars) : Chars :=
  if base_name = [] then "NONE".data
  else
    base_name.headD ' ' :: '_' ::
      (strOf (Nat.repr (base_name.length / 5)) ++ '_' :: (pySplit base_name).headD ("NONE".data))

/-- `CompanyDedupEngine.get_ratio` delegates to jellyfish's Jaro-Winkler. -/
def CompanyDedupEngine.get_ratio (s1 s2 : Chars) : ℚ := jaroWinkler s1 s2

/-- `CompanyDedupEngine.get_token_sorted_match`: equality of the
concatenations of the sorted whitespace tokens. -/
def CompanyDedupEngine.get_token_sorted_match (s1 s2 : Chars) : Bool :=
  decide ((sortLex (pySplit s1)).flatten = (sortLex (pySplit s2)).flatten)

/-- `CompanyDedupEngine.calculate_confidence`. -/
def CompanyDedupEngine.calculate_confidence (ratio : ℚ) (is_token_match : Bool) : ℚ × String :=
  if is_token_match && decide (ratio ≥ mkRat 90 100) then
    (mkRat 98 100, "token-sorted match AND ratio >= 0.90")
  else if ratio ≥ mkRat 90 100 then (mkRat 95 100, "ratio >= 0.90")
  else if ratio ≥ mkRat 85 100 then (mkRat 88 100, "ratio >= 0.85")
  else (mkRat 70 100, "Isolated or weak match")

/-!  The `process` pipeline. -/

structure Row where
  row_order : Nat
  original_name : Option Chars
  normalized_name : Chars
  base_name : Chars
  block_key : Chars
  cluster_id : Nat
  confidence : ℚ
  reason : String
  canonical_name : Chars
  cluster_size : Nat
deriving DecidableEq, Repr

instance : Inhabited Row :=
  ⟨{ row_order := 0, original_name := none, normalized_name := [], base_name := [],
     block_key := [], cluster_id := 0, confidence := 0, reason := "",
     canonical_name := [], cluster_size := 0 }⟩

/-- Row built in step 1 of `process`.  The dict of the source has no
canonical_name / cluster_size keys until step 5 assigns them for every row;
the embedding initialises them with placeholders. -/
def initRow (eng : CompanyDedupEngine) (i : Nat) (orig : Option Chars) : Row :=
  let nb := eng.get_base_name orig
  { row_order := i, original_name := orig, normalized_name := nb.1, base_name := nb.2,
    block_key := CompanyDedupEngine.get_block_key nb.2, cluster_id := i,
    confidence := mkRat 70 100, reason := "Isolated or weak match",
    canonical_name := [], cluster_size := 0 }

def initialRows (eng : CompanyDedupEngine) (df : List (Option Chars)) : List Row :=
  (List.range df.length).map (fun i => initRow eng i (df.getD i none))

def rowAt (rows : List Row) (i : Nat) : Row := rows.getD i default

def modifyAt {α : Type} : List α → Nat → (α → α) → List α
  | [], _, _ => []
  | x :: xs, 0, f => f x :: xs
  | x :: xs, n + 1, f => x :: modifyAt xs n f

/-- Fueled parent chase of the union-find `find` (see the header note on path
compression). -/
def findAux (parent : List Nat) : Nat → Nat → Nat
  | 0, i => i
  | fuel + 1, i =>
    let p := parent.getD i i
    if p = i then i else findAux parent fuel p

def find (parent : List Nat) (i : Nat) : Nat := findAux parent parent.length i

structure MergeState where
  parent : List Nat
  rows : List Row
deriving DecidableEq, Repr

/-- The inner `union` of `process`: when the roots differ, hang root of `i`
under root of `j` and update row `i` only, keeping the maximum confidence and
overwriting the reason with this match's reason. -/
def union (st : MergeState) (i j : Nat) (ratio : ℚ) (is_token_match : Bool) : MergeState :=
  let root_i := find st.parent i
  let root_j := find st.parent j
  if root_i = root_j then st
  else
    let cr := CompanyDedupEngine.calculate_confidence ratio is_token_match
    { parent := st.parent.set root_i root_j,
      rows := modifyAt st.rows i
        (fun r => { r with confidence := max r.confidence cr.1, reason := cr.2 }) }

/-- Insert an index into the bucket of a key, creating the bucket at the end
on a fresh key: the behaviour of a Python defaultdict(list) with insertion
order. -/
def bucketAdd {κ : Type} [DecidableEq κ] (bs : List (κ × List Nat)) (k : κ) (i : Nat) :
    List (κ × List Nat) :=
  if bs.any (fun e => e.1 = k) then
    bs.map (fun e => if e.1 = k then (e.1, e.2 ++ [i]) else e)
  else bs ++ [(k, [i])]

/-- Grouping loop of step 2: indices of rows with non-empty base names,
bucketed by block key. -/
def buildBlocks (rows : List Row) : List (Chars × List Nat) :=
  (List.range rows.length).foldl
    (fun bs i => if (rowAt rows i).base_name = [] then bs
      else bucketAdd bs (rowAt rows i).block_key i) []

/-- All ordered pairs `(l[i], l[j])` with `i < j`, in the loop order of the
source. -/
def pairsOf : List Nat → List (Nat × Nat)
  | [] => []
  | x :: xs => xs.map (fun y => (x, y)) ++ pairsOf xs

def candidatePairs (rows : List Row) : List (Nat × Nat) :=
  ((buildBlocks rows).map (fun b => pairsOf b.2)).flatten

/-- One iteration of the matching double loop: score the pair of base names
and union when `(token match and ratio >= soft) or ratio >= hard`. -/
def mergeStep (eng : CompanyDedupEngine) (st : MergeState) (p : Nat × Nat) : MergeState :=
  let b1 := (rowAt st.rows p.1).base_name
  let b2 := (rowAt st.rows p.2).base_name
  let ratio := CompanyDedupEngine.get_ratio b1 b2
  let is_token_match := CompanyDedupEngine.get_token_sorted_match b1 b2
  if (is_token_match && decide (ratio ≥ eng.soft_threshold)) ||
      decide (ratio ≥ eng.hard_threshold) then
    union st p.1 p.2 ratio is_token_match
  else st

/-- Starting state of step 2: every row is its own parent. -/
def mergeInit (eng : CompanyDedupEngine) (df : List (Option Chars)) : MergeState :=
  { parent := List.range (initialRows eng df).length, rows := initialRows eng df }

/-- Steps 1 and 2 of `process`: build rows, then fold the matching loop over
all candidate pairs starting from the identity parent array. -/
def mergePhase (eng : CompanyDedupEngine) (df : List (Option Chars)) : MergeState :=
  (candidatePairs (initialRows eng df)).foldl (mergeStep eng) (mergeInit eng df)

/-- Step 3, per row: `cluster_id := find(i)`; empty-base rows are forced to
confidence 0.50 with a fixed reason. -/
def finalizeRow (parent : List Nat) (i : Nat) (r : Row) : Row :=
  let r1 : Row := { r with cluster_id := find parent i }
  if r1.base_name = [] then
    { r1 with
      confidence := mkRat 50 100,
      reason := "No base name after cleaning; kept as singleton" }
  else r1

def finalizePhase (st : MergeState) : List Row :=
  (List.range st.rows.length).map (fun i => finalizeRow st.parent i (rowAt st.rows i))

/-- Generic form of the defaultdict grouping loops of steps 2 and 3. -/
def groupBuckets {α : Type} {κ : Type} [DecidableEq κ] (key : α → κ) (val : α → Nat)
    (l : List α) : List (κ × List Nat) :=
  l.foldl (fun cs a => bucketAdd cs (key a) (val a)) []

/-- Cluster map of step 3: indices bucketed by root, in insertion order. -/
def clustersOf (st : MergeState) : List (Nat × List Nat) :=
  groupBuckets (find st.parent) id (List.range st.rows.length)

/-- Distinct values in first-occurrence order: the index of a pandas
value_counts, which the canonical choice only uses through order-independent
properties. -/
def dedupFirst (l : List Chars) : List Chars :=
  l.foldl (fun acc x => if x ∈ acc then acc else acc ++ [x]) []

/-- Canonical name of one cluster (step 5): the non-empty base names of the
members; when none exist the first member's normalized name; otherwise a base
name of maximal frequency, shortest first among ties (Python
sorted(candidates, key=len)[0]). -/
def canonicalOf (rows : List Row) (members : List Nat) : Chars :=
  let base_names := members.filterMap
    (fun idx => if (rowAt rows idx).base_name = [] then none else some (rowAt rows idx).base_name)
  if base_names = [] then (rowAt rows (members.headD 0)).normalized_name
  else
    let dedup := dedupFirst base_names
    let maxFreq := (dedup.map (fun b => base_names.count b)).foldl max 0
    let candidates := dedup.filter (fun b => base_names.count b = maxFreq)
    (sortLenAsc candidates).headD []

/-- Assignment loop body of step 5: write the canonical name and cluster size
into every member row. -/
def assignCluster (rows : List Row) (entry : Nat × List Nat) : List Row :=
  let canonical := canonicalOf rows entry.2
  let size := entry.2.length
  entry.2.foldl
    (fun rs idx => modifyAt rs idx
      (fun r => { r with canonical_name := canonical, cluster_size := size })) rows

def canonicalPhase (st : MergeState) (rows : List Row) : List Row :=
  (clustersOf st).foldl assignCluster rows

/-- `CompanyDedupEngine.process` (steps 4 and 6 omitted, see the header). -/
def CompanyDedupEngine.process (eng : CompanyDedupEngine) (df : List (Option Chars)) : List Row :=
  let st := mergePhase eng df
  canonicalPhase st (finalizePhase st)

/-!  Basic access lemmas. -/

theorem getD_out {α : Type} (l : List α) (k : Nat) (d : α) (h : l.length ≤ k) :
    l.getD k d = d := by
  simp [List.getD_eq_getElem?_getD, List.getElem?_eq_none (by simpa using h)]

theorem getD_lt {α : Type} (l : List α) (k : Nat) (d : α) (h : k < l.length) :
    l.getD k d = l[k] := List.getD_eq_getElem l d h

theorem getD_range (n k d : Nat) (h : k < n) : (List.range n).getD k d = k := by
  rw [getD_lt _ _ _ (by simpa using h)]
  simp

theorem getD_range_self (n k : Nat) : (List.range n).getD k k = k := by
  rcases Nat.lt_or_ge k n with h | h
  · exact getD_range n k k h
  · exact getD_out _ _ _ (by simpa using h)

theorem rowAt_map_range (f : Nat → Row) (n k : Nat) (h : k < n) :
    rowAt ((List.range n).map f) k = f k := by
  rw [rowAt, getD_lt _ _ _ (by simpa using h)]
  simp

theorem modifyAt_length {α : Type} : ∀ (l : List α) (i : Nat) (f : α → α),
    (modifyAt l i f).length = l.length
  | [], _, _ => rfl
  | _ :: _, 0, _ => rfl
  | x :: xs, n + 1, f => by simp [modifyAt, modifyAt_length xs n f]

theorem modifyAt_ge {α : Type} : ∀ (l : List α) (i : Nat) (f : α → α),
    l.length ≤ i → modifyAt l i f = l
  | [], _, _, _ => rfl
  | x :: xs, n + 1, f, h => by
    simp only [modifyAt]
    rw [modifyAt_ge xs n f (by simpa using h)]

theorem getD_modifyAt_ne {α : Type} : ∀ (l : List α) (i k : Nat) (f : α → α) (d : α),
    k ≠ i → (modifyAt l i f).getD k d = l.getD k d
  | [], _, _, _, _, _ => rfl
  | x :: xs, 0, 0, f, d, h => absurd rfl h
  | x :: xs, 0, k + 1, f, d, _ => rfl
  | x :: xs, i + 1, 0, f, d, _ => rfl
  | x :: xs, i + 1, k + 1, f, d, h => by
    simp only [modifyAt, List.getD_cons_succ]
    exact getD_modifyAt_ne xs i k f d (fun hk => h (by rw [hk]))

theorem getD_modifyAt_self {α : Type} : ∀ (l : List α) (i : Nat) (f : α → α) (d : α),
    i < l.length → (modifyAt l i f).getD i d = f (l.getD i d)
  | x :: xs, 0, f, d, _ => rfl
  | x :: xs, i + 1, f, d, h => by
    simp only [modifyAt, List.getD_cons_succ]
    exact getD_modifyAt_self xs i f d (by simpa using h)

theorem getD_set_ne (l : List Nat) (i v k d : Nat) (h : k ≠ i) :
    (l.set i v).getD k d = l.getD k d := by
  rcases Nat.lt_or_ge k l.length with hk | hk
  · rw [getD_lt _ _ _ (by simpa using hk), getD_lt _ _ _ hk]
    exact List.getElem_set_ne (fun he => h he.symm) _
  · rw [getD_out _ _ _ (by simpa using hk), getD_out _ _ _ hk]

theorem foldl_mem_inv {α β : Type} (f : β → α → β) (P : β → Prop) :
    ∀ (l : List α) (s : β), (∀ st a, a ∈ l → P st → P (f st a)) → P s → P (l.foldl f s)
  | [], _, _, hs => hs
  | a :: l, s, h, hs =>
    foldl_mem_inv f P l (f s a) (fun st b hb => h st b (List.mem_cons_of_mem a hb))
      (h s a (List.mem_cons_self a l) hs)

/-!  Structural lemmas about the merge loop. -/

theorem union_parent_length (st : MergeState) (i j : Nat) (r : ℚ) (tm : Bool) :
    (union st i j r tm).parent.length = st.parent.length := by
  simp only [union]
  split
  · rfl
  · simp

theorem union_rows_length (st : MergeState) (i j : Nat) (r : ℚ) (tm : Bool) :
    (union st i j r tm).rows.length = st.rows.length := by
  simp only [union]
  split
  · rfl
  · simp [modifyAt_length]

theorem mergeStep_parent_length (eng : CompanyDedupEngine) (st : MergeState) (p : Nat × Nat) :
    (mergeStep eng st p).parent.length = st.parent.length := by
  simp only [mergeStep]
  split
  · exact union_parent_length ..
  · rfl

theorem mergeStep_rows_length (eng : CompanyDedupEngine) (st : MergeState) (p : Nat × Nat) :
    (mergeStep eng st p).rows.length = st.rows.length := by
  simp only [mergeStep]
  split
  · exact union_rows_length ..
  · rfl

theorem union_rowAt (st : MergeState) (i j : Nat) (r : ℚ) (tm : Bool) (k : Nat) :
    ∃ c q, rowAt (union st i j r tm).rows k =
      { rowAt st.rows k with confidence := c, reason := q } := by
  have hid : rowAt st.rows k =
      { rowAt st.rows k with
        confidence := (rowAt st.rows k).confidence, reason := (rowAt st.rows k).reason } := rfl
  simp only [union]
  split
  · exact ⟨_, _, hid⟩
  · by_cases hk : k = i
    · subst hk
      rcases Nat.lt_or_ge k st.rows.length with hlt | hge
      · exact ⟨max (rowAt st.rows k).confidence (CompanyDedupEngine.calculate_confidence r tm).1,
          (CompanyDedupEngine.calculate_confidence r tm).2, by
            simp only [rowAt]
            rw [getD_modifyAt_self _ _ _ _ hlt]⟩
      · exact ⟨(rowAt st.rows k).confidence, (rowAt st.rows k).reason, by
          simp only [rowAt]
          rw [modifyAt_ge _ _ _ hge]⟩
    · exact ⟨(rowAt st.rows k).confidence, (rowAt st.rows k).reason, by
        simp only [rowAt]
        rw [getD_modifyAt_ne _ _ _ _ _ hk]⟩

theorem mergeStep_rowAt (eng : CompanyDedupEngine) (st : MergeState) (p : Nat × Nat) (k : Nat) :
    ∃ c q, rowAt (mergeStep eng st p).rows k =
      { rowAt st.rows k with confidence := c, reason := q } := by
  simp only [mergeStep]
  split
  · exact union_rowAt ..
  · exact ⟨_, _, rfl⟩

theorem mergeFold_rowAt (eng : CompanyDedupEngine) :
    ∀ (ps : List (Nat × Nat)) (st : MergeState) (k : Nat),
    ∃ c q, rowAt (ps.foldl (mergeStep eng) st).rows k =
      { rowAt st.rows k with confidence := c, reason := q }
  | [], st, k => ⟨_, _, rfl⟩
  | p :: ps, st, k => by
    obtain ⟨c, q, hc⟩ := mergeFold_rowAt eng ps (mergeStep eng st p) k
    obtain ⟨c0, q0, hc0⟩ := mergeStep_rowAt eng st p k
    exact ⟨c, q, by rw [List.foldl_cons, hc, hc0]⟩

theorem mergeFold_rows_length (eng : CompanyDedupEngine) :
    ∀ (ps : List (Nat × Nat)) (st : MergeState),
    (ps.foldl (mergeStep eng) st).rows.length = st.rows.length
  | [], _ => rfl
  | p :: ps, st => by
    rw [List.foldl_cons, mergeFold_rows_length eng ps, mergeStep_rows_length]

theorem mergeFold_parent_length (eng : CompanyDedupEngine) :
    ∀ (ps : List (Nat × Nat)) (st : MergeState),
    (ps.foldl (mergeStep eng) st).parent.length = st.parent.length
  | [], _ => rfl
  | p :: ps, st => by
    rw [List.foldl_cons, mergeFold_parent_length eng ps, mergeStep_parent_length]

theorem union_conf_le (st : MergeState) (i j : Nat) (r : ℚ) (tm : Bool) (k : Nat) :
    (rowAt st.rows k).confidence ≤ (rowAt (union st i j r tm).rows k).confidence := by
  simp only [union]
  split
  · exact le_refl _
  · by_cases hk : k = i
    · subst hk
      rcases Nat.lt_or_ge k st.rows.length with hlt | hge
      · simp only [rowAt]
        rw [getD_modifyAt_self _ _ _ _ hlt]
        exact le_max_left _ _
      · simp only [rowAt]
        rw [modifyAt_ge _ _ _ hge]
    · simp only [rowAt]
      rw [getD_modifyAt_ne _ _ _ _ _ hk]

theorem mergeStep_conf_le (eng : CompanyDedupEngine) (st : MergeState) (p : Nat × Nat) (k : Nat) :
    (rowAt st.rows k).confidence ≤ (rowAt (mergeStep eng st p).rows k).confidence := by
  simp only [mergeStep]
  split
  · exact union_conf_le ..
  · exact le_refl _

theorem mergeFold_conf_le (eng : CompanyDedupEngine) :
    ∀ (ps : List (Nat × Nat)) (st : MergeState) (k : Nat),
    (rowAt st.rows k).confidence ≤ (rowAt (ps.foldl (mergeStep eng) st).rows k).confidence
  | [], _, _ => le_refl _
  | p :: ps, st, k =>
    le_trans (mergeStep_conf_le eng st p k) (mergeFold_conf_le eng ps (mergeStep eng st p) k)

/-!  Blocking lemmas: members of a bucket carry the bucket's key. -/

theorem bucketAdd_mem {κ : Type} [DecidableEq κ] (bs : List (κ × List Nat)) (k : κ) (i : Nat) :
    ∀ e ∈ bucketAdd bs k i, ∀ x ∈ e.2,
      (∃ e2 ∈ bs, x ∈ e2.2 ∧ e.1 = e2.1) ∨ (x = i ∧ e.1 = k) := by
  intro e he x hx
  simp only [bucketAdd] at he
  split at he
  · obtain ⟨e0, he0, rfl⟩ := List.mem_map.mp he
    by_cases hk : e0.1 = k
    · rw [if_pos hk] at hx ⊢
      rcases List.mem_append.mp hx with hold | hnew
      · exact Or.inl ⟨e0, he0, hold, rfl⟩
      · exact Or.inr ⟨List.mem_singleton.mp hnew, hk⟩
    · rw [if_neg hk] at hx ⊢
      exact Or.inl ⟨e0, he0, hx, rfl⟩
  · rcases List.mem_append.mp he with hold | hnew
    · exact Or.inl ⟨e, hold, hx, rfl⟩
    · rw [List.mem_singleton.mp hnew] at hx ⊢
      exact Or.inr ⟨List.mem_singleton.mp hx, rfl⟩

theorem buildBlocks_mem (rows : List Row) :
    ∀ e ∈ buildBlocks rows, ∀ i ∈ e.2,
      (rowAt rows i).block_key = e.1 ∧ (rowAt rows i).base_name ≠ [] ∧ i < rows.length := by
  refine foldl_mem_inv _
    (fun (bs : List (Chars × List Nat)) => ∀ e ∈ bs, ∀ i ∈ e.2,
      (rowAt rows i).block_key = e.1 ∧ (rowAt rows i).base_name ≠ [] ∧ i < rows.length)
    (List.range rows.length) [] ?_ (by intro e he; cases he)
  intro bs a ha hP
  split
  · exact hP
  · intro e he x hx
    rcases bucketAdd_mem bs _ a e he x hx with ⟨e2, he2, hx2, hkey⟩ | ⟨rfl, hkey⟩
    · obtain ⟨h1, h2, h3⟩ := hP e2 he2 x hx2
      exact ⟨by rw [hkey, ← h1], h2, h3⟩
    · refine ⟨hkey.symm, by assumption, List.mem_range.mp ha⟩

theorem pairsOf_mem : ∀ (l : List Nat) (p : Nat × Nat), p ∈ pairsOf l → p.1 ∈ l ∧ p.2 ∈ l
  | x :: xs, p, hp => by
    simp only [pairsOf] at hp
    rcases List.mem_append.mp hp with hmap | hrec
    · obtain ⟨y, hy, rfl⟩ := List.mem_map.mp hmap
      exact ⟨List.mem_cons_self x xs, List.mem_cons_of_mem x hy⟩
    · obtain ⟨h1, h2⟩ := pairsOf_mem xs p hrec
      exact ⟨List.mem_cons_of_mem x h1, List.mem_cons_of_mem x h2⟩

theorem candidatePairs_mem (rows : List Row) (p : Nat × Nat) (hp : p ∈ candidatePairs rows) :
    (rowAt rows p.1).block_key = (rowAt rows p.2).block_key ∧
    (rowAt rows p.1).base_name ≠ [] ∧ (rowAt rows p.2).base_name ≠ [] ∧
    p.1 < rows.length ∧ p.2 < rows.length := by
  simp only [candidatePairs, List.mem_flatten] at hp
  obtain ⟨lp, hlp, hplp⟩ := hp
  obtain ⟨b, hb, rfl⟩ := List.mem_map.mp hlp
  obtain ⟨h1, h2⟩ := pairsOf_mem b.2 p hplp
  obtain ⟨k1, n1, b1⟩ := buildBlocks_mem rows b hb p.1 h1
  obtain ⟨k2, n2, b2⟩ := buildBlocks_mem rows b hb p.2 h2
  exact ⟨by rw [k1, k2], n1, n2, b1, b2⟩

/-- C1: for every candidate pair (same block, both base names non-empty) the
merge loop invokes `union` exactly when
`(token_sorted_equal and ratio >= soft_threshold) or ratio >= hard_threshold`,
and the thresholds of an engine built from empty settings default to 0.85
(soft) and 0.90 (hard). -/
theorem C1_match_predicate (settings : Settings) (df : List (Option Chars))
    (p : Nat × Nat)
    (hp : p ∈ candidatePairs (initialRows (CompanyDedupEngine.init settings) df))
    (st : MergeState) :
    ((rowAt (initialRows (CompanyDedupEngine.init settings) df) p.1).block_key =
       (rowAt (initialRows (CompanyDedupEngine.init settings) df) p.2).block_key ∧
     (rowAt (initialRows (CompanyDedupEngine.init settings) df) p.1).base_name ≠ [] ∧
     (rowAt (initialRows (CompanyDedupEngine.init settings) df) p.2).base_name ≠ []) ∧
    (mergeStep (CompanyDedupEngine.init settings) st p =
      if (CompanyDedupEngine.get_token_sorted_match (rowAt st.rows p.1).base_name
            (rowAt st.rows p.2).base_name = true ∧
          CompanyDedupEngine.get_ratio (rowAt st.rows p.1).base_name
            (rowAt st.rows p.2).base_name ≥ (CompanyDedupEngine.init settings).soft_threshold) ∨
          CompanyDedupEngine.get_ratio (rowAt st.rows p.1).base_name
            (rowAt st.rows p.2).base_name ≥ (CompanyDedupEngine.init settings).hard_threshold
      then union st p.1 p.2
        (CompanyDedupEngine.get_ratio (rowAt st.rows p.1).base_name (rowAt st.rows p.2).base_name)
        (CompanyDedupEngine.get_token_sorted_match (rowAt st.rows p.1).base_name
          (rowAt st.rows p.2).base_name)
      else st) ∧
    (CompanyDedupEngine.init {}).soft_threshold = mkRat 85 100 ∧
    (CompanyDedupEngine.init {}).hard_threshold = mkRat 90 100 := by
  obtain ⟨hkey, hb1, hb2, _, _⟩ := candidatePairs_mem _ p hp
  refine ⟨⟨hkey, hb1, hb2⟩, ?_, rfl, rfl⟩
  by_cases hc : (CompanyDedupEngine.get_token_sorted_match (rowAt st.rows p.1).base_name
        (rowAt st.rows p.2).base_name = true ∧
      CompanyDedupEngine.get_ratio (rowAt st.rows p.1).base_name
        (rowAt st.rows p.2).base_name ≥ (CompanyDedupEngine.init settings).soft_threshold) ∨
      CompanyDedupEngine.get_ratio (rowAt st.rows p.1).base_name
        (rowAt st.rows p.2).base_name ≥ (CompanyDedupEngine.init settings).hard_threshold
  · rw [if_pos hc]
    simp only [mergeStep]
    rw [if_pos (by simpa using hc)]
  · rw [if_neg hc]
    simp only [mergeStep]
    rw [if_neg (by simpa using hc)]

theorem C1_witness :
    (rowAt (initialRows (CompanyDedupEngine.init {}) [some ("IBM").data, some ("IBM").data]) 0).block_key =
      (rowAt (initialRows (CompanyDedupEngine.init {}) [some ("IBM").data, some ("IBM").data]) 1).block_key ∧
    (rowAt (initialRows (CompanyDedupEngine.init {}) [some ("IBM").data, some ("IBM").data]) 0).base_name ≠ [] ∧
    (rowAt (initialRows (CompanyDedupEngine.init {}) [some ("IBM").data, some ("IBM").data]) 1).base_name ≠ [] :=
  (C1_match_predicate {} [some ("IBM").data, some ("IBM").data] (0, 1) (by decide)
    { parent := [0, 1],
      rows := initialRows (CompanyDedupEngine.init {}) [some ("IBM").data, some ("IBM").data] }).1

/-- C4: the confidence scorer returns exactly the documented
condition-to-(confidence, reason) table, and a firing union keeps only the
maximum of the record's current confidence and the new match confidence. -/
theorem C4_confidence_scorer (ratio : ℚ) (tm : Bool) :
    (tm = true ∧ ratio ≥ mkRat 90 100 →
      CompanyDedupEngine.calculate_confidence ratio tm =
        (mkRat 98 100, "token-sorted match AND ratio >= 0.90")) ∧
    (tm = false ∧ ratio ≥ mkRat 90 100 →
      CompanyDedupEngine.calculate_confidence ratio tm = (mkRat 95 100, "ratio >= 0.90")) ∧
    (ratio < mkRat 90 100 ∧ ratio ≥ mkRat 85 100 →
      CompanyDedupEngine.calculate_confidence ratio tm = (mkRat 88 100, "ratio >= 0.85")) ∧
    (ratio < mkRat 85 100 →
      CompanyDedupEngine.calculate_confidence ratio tm = (mkRat 70 100, "Isolated or weak match")) ∧
    (∀ (st : MergeState) (i j : Nat), i < st.rows.length →
      find st.parent i ≠ find st.parent j →
      (rowAt (union st i j ratio tm).rows i).confidence =
        max (rowAt st.rows i).confidence (CompanyDedupEngine.calculate_confidence ratio tm).1) := by
  refine ⟨?_, ?_, ?_, ?_, ?_⟩
  · rintro ⟨h1, h2⟩
    simp [CompanyDedupEngine.calculate_confidence, h1, h2]
  · rintro ⟨h1, h2⟩
    simp [CompanyDedupEngine.calculate_confidence, h1, h2]
  · rintro ⟨h1, h2⟩
    simp [CompanyDedupEngine.calculate_confidence, h2, not_le.mpr h1]
  · intro h
    have h90 : ¬ (ratio ≥ mkRat 90 100) := not_le.mpr (lt_of_lt_of_le h (by decide))
    have h85 : ¬ (ratio ≥ mkRat 85 100) := not_le.mpr h
    simp [CompanyDedupEngine.calculate_confidence, h90, h85]
  · intro st i j hi hne
    simp only [union]
    rw [if_neg hne]
    simp only [rowAt]
    rw [getD_modifyAt_self _ _ _ _ hi]

theorem C4_witness :
    CompanyDedupEngine.calculate_confidence 1 true =
      (mkRat 98 100, "token-sorted match AND ratio >= 0.90") ∧
    CompanyDedupEngine.calculate_confidence (mkRat 87 100) false =
      (mkRat 88 100, "ratio >= 0.85") :=
  ⟨(C4_confidence_scorer 1 true).1 ⟨rfl, by decide⟩,
   (C4_confidence_scorer (mkRat 87 100) false).2.2.1 ⟨by decide, by decide⟩⟩

/-- C5 fails on the code: a record's stored confidence is the maximum over
the matches that updated it, but its reason is overwritten by the most recent
updating match, so confidence 0.98 can end up paired with the reason of a
weaker later match.  Concrete run (soft=0.5, hard=2): rows "T AB CD",
"T AB CD", "T CD AB" share one block; pair (0,1) is an exact token-sorted
match (confidence 0.98, strong reason), pair (0,2) then fires a weak match
(scored 0.70) whose reason overwrites row 0's reason while the confidence
stays 0.98. -/
theorem C5_counterexample :
    (rowAt ((CompanyDedupEngine.init { hard := some 2, soft := some (mkRat 1 2) }).process
      [some ("T AB CD").data, some ("T AB CD").data, some ("T CD AB").data]) 0).confidence
      = mkRat 98 100 ∧
    (rowAt ((CompanyDedupEngine.init { hard := some 2, soft := some (mkRat 1 2) }).process
      [some ("T AB CD").data, some ("T AB CD").data, some ("T CD AB").data]) 0).reason
      = "Isolated or weak match" ∧
    ("Isolated or weak match" : String) ≠ "token-sorted match AND ratio >= 0.90" := by
  refine ⟨by decide, by decide, by decide⟩

/-- C5 amended: when a union fires on pair (i, j), row i's confidence becomes
the maximum of its previous value and the match's scored confidence, while
row i's reason is replaced by this match's reason (even when the held
confidence stems from an earlier, stronger match); no other row changes. -/
theorem C5_amended (st : MergeState) (i j : Nat) (ratio : ℚ) (tm : Bool)
    (hi : i < st.rows.length) (hfire : find st.parent i ≠ find st.parent j) :
    (rowAt (union st i j ratio tm).rows i).reason =
      (CompanyDedupEngine.calculate_confidence ratio tm).2 ∧
    (rowAt (union st i j ratio tm).rows i).confidence =
      max (rowAt st.rows i).confidence (CompanyDedupEngine.calculate_confidence ratio tm).1 ∧
    ∀ k, k ≠ i → rowAt (union st i j ratio tm).rows k = rowAt st.rows k := by
  simp only [union]
  rw [if_neg hfire]
  refine ⟨?_, ?_, ?_⟩
  · simp only [rowAt]
    rw [getD_modifyAt_self _ _ _ _ hi]
  · simp only [rowAt]
    rw [getD_modifyAt_self _ _ _ _ hi]
  · intro k hk
    simp only [rowAt]
    rw [getD_modifyAt_ne _ _ _ _ _ hk]

theorem C5_witness :
    (rowAt (union ⟨[0, 1], initialRows (CompanyDedupEngine.init {})
        [some ("IBM").data, some ("IBM").data]⟩ 0 1 1 true).rows 0).reason
      = "token-sorted match AND ratio >= 0.90" :=
  (C5_amended _ 0 1 1 true (by decide) (by decide)).1

/-!  Structural lemmas about finalize and canonical assignment. -/

theorem initialRows_length (eng : CompanyDedupEngine) (df : List (Option Chars)) :
    (initialRows eng df).length = df.length := by
  simp [initialRows]

theorem mergePhase_rows_length (eng : CompanyDedupEngine) (df : List (Option Chars)) :
    (mergePhase eng df).rows.length = df.length := by
  rw [mergePhase, mergeFold_rows_length]
  exact initialRows_length eng df

theorem mergePhase_parent_length (eng : CompanyDedupEngine) (df : List (Option Chars)) :
    (mergePhase eng df).parent.length = df.length := by
  rw [mergePhase, mergeFold_parent_length]
  simp [mergeInit, initialRows_length]

theorem mergePhase_rowAt (eng : CompanyDedupEngine) (df : List (Option Chars)) (k : Nat) :
    ∃ c q, rowAt (mergePhase eng df).rows k =
      { rowAt (initialRows eng df) k with confidence := c, reason := q } := by
  rw [mergePhase]
  exact mergeFold_rowAt eng _ (mergeInit eng df) k

theorem finalizePhase_length (st : MergeState) :
    (finalizePhase st).length = st.rows.length := by
  simp [finalizePhase]

theorem finalizePhase_rowAt (st : MergeState) (k : Nat) (hk : k < st.rows.length) :
    rowAt (finalizePhase st) k = finalizeRow st.parent k (rowAt st.rows k) :=
  rowAt_map_range _ _ _ hk

theorem modifyCanon_rowAt (rows : List Row) (idx k : Nat) (c0 : Chars) (s0 : Nat) :
    ∃ cn sz, rowAt (modifyAt rows idx
        (fun r => { r with canonical_name := c0, cluster_size := s0 })) k =
      { rowAt rows k with canonical_name := cn, cluster_size := sz } := by
  have hid : rowAt rows k =
      { rowAt rows k with
        canonical_name := (rowAt rows k).canonical_name,
        cluster_size := (rowAt rows k).cluster_size } := rfl
  by_cases hk : k = idx
  · subst hk
    rcases Nat.lt_or_ge k rows.length with hlt | hge
    · exact ⟨c0, s0, by
        simp only [rowAt]
        rw [getD_modifyAt_self _ _ _ _ hlt]⟩
    · exact ⟨_, _, by
        simp only [rowAt]
        rw [modifyAt_ge _ _ _ hge]⟩
  · exact ⟨_, _, by
      simp only [rowAt]
      rw [getD_modifyAt_ne _ _ _ _ _ hk]⟩

theorem setCanonFold_rowAt (c0 : Chars) (s0 : Nat) :
    ∀ (idxs : List Nat) (rows : List Row) (k : Nat),
    ∃ cn sz, rowAt (idxs.foldl (fun rs idx => modifyAt rs idx
        (fun r => { r with canonical_name := c0, cluster_size := s0 })) rows) k =
      { rowAt rows k with canonical_name := cn, cluster_size := sz }
  | [], rows, k => ⟨_, _, rfl⟩
  | idx :: idxs, rows, k => by
    rw [List.foldl_cons]
    obtain ⟨cn, sz, h⟩ := setCanonFold_rowAt c0 s0 idxs
      (modifyAt rows idx (fun r => { r with canonical_name := c0, cluster_size := s0 })) k
    obtain ⟨cn0, sz0, h0⟩ := modifyCanon_rowAt rows idx k c0 s0
    exact ⟨cn, sz, by rw [h, h0]⟩

theorem assignCluster_rowAt (rows : List Row) (e : Nat × List Nat) (k : Nat) :
    ∃ cn sz, rowAt (assignCluster rows e) k =
      { rowAt rows k with canonical_name := cn, cluster_size := sz } := by
  simp only [assignCluster]
  exact setCanonFold_rowAt _ _ e.2 rows k

theorem canonicalFold_rowAt :
    ∀ (entries : List (Nat × List Nat)) (rows : List Row) (k : Nat),
    ∃ cn sz, rowAt (entries.foldl assignCluster rows) k =
      { rowAt rows k with canonical_name := cn, cluster_size := sz }
  | [], rows, k => ⟨_, _, rfl⟩
  | e :: es, rows, k => by
    rw [List.foldl_cons]
    obtain ⟨cn, sz, h⟩ := canonicalFold_rowAt es (assignCluster rows e) k
    obtain ⟨cn0, sz0, h0⟩ := assignCluster_rowAt rows e k
    exact ⟨cn, sz, by rw [h, h0]⟩

theorem canonicalPhase_rowAt (st : MergeState) (rows : List Row) (k : Nat) :
    ∃ cn sz, rowAt (canonicalPhase st rows) k =
      { rowAt rows k with canonical_name := cn, cluster_size := sz } :=
  canonicalFold_rowAt (clustersOf st) rows k

theorem modifyAt_const_length {α : Type} (f : α → α) :
    ∀ (idxs : List Nat) (l : List α),
    (idxs.foldl (fun rs idx => modifyAt rs idx f) l).length = l.length
  | [], _ => rfl
  | idx :: idxs, l => by
    rw [List.foldl_cons, modifyAt_const_length f idxs, modifyAt_length]

theorem assignCluster_length (rows : List Row) (e : Nat × List Nat) :
    (assignCluster rows e).length = rows.length := by
  simp only [assignCluster]
  exact modifyAt_const_length _ e.2 rows

theorem canonicalFold_length :
    ∀ (entries : List (Nat × List Nat)) (rows : List Row),
    (entries.foldl assignCluster rows).length = rows.length
  | [], _ => rfl
  | e :: es, rows => by
    rw [List.foldl_cons, canonicalFold_length es, assignCluster_length]

theorem process_length (eng : CompanyDedupEngine) (df : List (Option Chars)) :
    (eng.process df).length = df.length := by
  rw [CompanyDedupEngine.process, canonicalPhase, canonicalFold_length, finalizePhase_length,
    mergePhase_rows_length]

/-- Row `k` of the final output is the finalized merge-state row with only its
canonical fields rewritten. -/
theorem process_rowAt (eng : CompanyDedupEngine) (df : List (Option Chars)) (k : Nat)
    (hk : k < df.length) :
    ∃ cn sz, rowAt (eng.process df) k =
      { finalizeRow (mergePhase eng df).parent k (rowAt (mergePhase eng df).rows k) with
        canonical_name := cn, cluster_size := sz } := by
  rw [CompanyDedupEngine.process]
  obtain ⟨cn, sz, h⟩ := canonicalPhase_rowAt (mergePhase eng df) (finalizePhase (mergePhase eng df)) k
  refine ⟨cn, sz, ?_⟩
  rw [h, finalizePhase_rowAt _ _ (by rw [mergePhase_rows_length]; exact hk)]

/-- C2 fails on the code for empty-base records: every row starts the merge
loop at confidence 0.70 (not 0.50), and the 0.50 value is assigned only after
the loop, lowering the confidence below its in-loop value.  Concrete run: the
single record "@@@" normalizes to an empty base name, holds 0.70 throughout
the merge loop and ends at 0.50 < 0.70. -/
theorem C2_counterexample :
    (rowAt (mergePhase (CompanyDedupEngine.init {}) [some ("@@@").data]).rows 0).confidence
      = mkRat 70 100 ∧
    (rowAt ((CompanyDedupEngine.init {}).process [some ("@@@").data]) 0).confidence
      = mkRat 50 100 ∧
    mkRat 50 100 < mkRat 70 100 := by
  refine ⟨by decide, by decide, by decide⟩

/-- C2 amended: every record starts the merge loop at confidence 0.70; during
the merge loop confidence is only ever raised (the value after any prefix of
the candidate-pair loop is at most the value at the end of the loop); and for
records whose base name is non-empty the confidence after `process` equals
the end-of-loop value, hence is greater or equal to the value at any earlier
point of the merge loop.  Records with empty base name are lowered to 0.50
only at finalization, after the merge loop. -/
theorem C2_confidence_monotone (settings : Settings) (df : List (Option Chars))
    (l r : List (Nat × Nat))
    (hsplit : candidatePairs (initialRows (CompanyDedupEngine.init settings) df) = l ++ r)
    (k : Nat) (hk : k < df.length) :
    (rowAt (initialRows (CompanyDedupEngine.init settings) df) k).confidence = mkRat 70 100 ∧
    (rowAt (l.foldl (mergeStep (CompanyDedupEngine.init settings))
        (mergeInit (CompanyDedupEngine.init settings) df)).rows k).confidence
      ≤ (rowAt (mergePhase (CompanyDedupEngine.init settings) df).rows k).confidence ∧
    ((rowAt (initialRows (CompanyDedupEngine.init settings) df) k).base_name ≠ [] →
      (rowAt ((CompanyDedupEngine.init settings).process df) k).confidence
        = (rowAt (mergePhase (CompanyDedupEngine.init settings) df).rows k).confidence) := by
  refine ⟨?_, ?_, ?_⟩
  · rw [initialRows, rowAt_map_range _ _ _ hk]
    rfl
  · rw [mergePhase, hsplit, List.foldl_append]
    exact mergeFold_conf_le _ r _ k
  · intro hbase
    obtain ⟨cn, sz, hout⟩ := process_rowAt (CompanyDedupEngine.init settings) df k hk
    rw [hout]
    obtain ⟨c, q, hmr⟩ := mergePhase_rowAt (CompanyDedupEngine.init settings) df k
    show (finalizeRow _ k (rowAt (mergePhase (CompanyDedupEngine.init settings) df).rows k)).confidence = _
    rw [finalizeRow]
    have hb2 : (rowAt (mergePhase (CompanyDedupEngine.init settings) df).rows k).base_name ≠ [] := by
      rw [hmr]
      exact hbase
    simp only []
    rw [if_neg (by simpa using hb2)]

theorem C2_witness :
    (rowAt (initialRows (CompanyDedupEngine.init {}) [some ("IBM").data, some ("IBM").data])
      0).confidence = mkRat 70 100 :=
  (C2_confidence_monotone {} [some ("IBM").data, some ("IBM").data] [] [(0, 1)] (by decide)
    0 (by decide)).1

/-!  Connectivity argument: unions never join rows from different blocks. -/

/-- One parent-pointer edge of the union-find forest. -/
def parentStep (parent : List Nat) (x y : Nat) : Prop := parent.getD x x = y

theorem getD_set_self (l : List Nat) (i v d : Nat) (h : i < l.length) :
    (l.set i v).getD i d = v := by
  rw [List.getD_eq_getElem _ _ (by simpa using h)]
  exact List.getElem_set_self _

/-- The fueled chase only follows parent edges, so its result is connected to
its argument. -/
theorem findAux_conn (parent : List Nat) :
    ∀ (fuel i : Nat), Relation.EqvGen (parentStep parent) i (findAux parent fuel i)
  | 0, i => Relation.EqvGen.refl i
  | fuel + 1, i => by
    simp only [findAux]
    by_cases h : parent.getD i i = i
    · rw [if_pos h]
      exact Relation.EqvGen.refl i
    · rw [if_neg h]
      exact Relation.EqvGen.trans _ _ _ (Relation.EqvGen.rel _ _ rfl)
        (findAux_conn parent fuel _)

theorem find_conn (parent : List Nat) (i : Nat) :
    Relation.EqvGen (parentStep parent) i (find parent i) :=
  findAux_conn parent parent.length i

/-- Invariant of the merge loop: connected rows are equal or share a block
key and have non-empty base names (all fields read in `rows0`). -/
def BlockInv (rows0 : List Row) (parent : List Nat) : Prop :=
  ∀ a b, Relation.EqvGen (parentStep parent) a b →
    a = b ∨ ((rowAt rows0 a).block_key = (rowAt rows0 b).block_key ∧
      (rowAt rows0 a).base_name ≠ [] ∧ (rowAt rows0 b).base_name ≠ [])

theorem blockInv_init (rows0 : List Row) (n : Nat) : BlockInv rows0 (List.range n) := by
  intro a b h
  left
  induction h with
  | rel x y hxy => exact (getD_range_self n x).symm.trans hxy
  | refl x => rfl
  | symm x y hxy ih => exact ih.symm
  | trans x y z hxy hyz ih1 ih2 => exact ih1.trans ih2

theorem blockInv_union (rows0 : List Row) (parent : List Nat) (i j : Nat)
    (hinv : BlockInv rows0 parent)
    (hkey : (rowAt rows0 i).block_key = (rowAt rows0 j).block_key)
    (hbi : (rowAt rows0 i).base_name ≠ []) (hbj : (rowAt rows0 j).base_name ≠ []) :
    BlockInv rows0 (parent.set (find parent i) (find parent j)) := by
  have hri : (rowAt rows0 (find parent i)).block_key = (rowAt rows0 i).block_key ∧
      (rowAt rows0 (find parent i)).base_name ≠ [] := by
    rcases hinv i (find parent i) (find_conn parent i) with heq | ⟨hk, _, hb⟩
    · rw [← heq]
      exact ⟨rfl, hbi⟩
    · exact ⟨hk.symm, hb⟩
  have hrj : (rowAt rows0 (find parent j)).block_key = (rowAt rows0 j).block_key ∧
      (rowAt rows0 (find parent j)).base_name ≠ [] := by
    rcases hinv j (find parent j) (find_conn parent j) with heq | ⟨hk, _, hb⟩
    · rw [← heq]
      exact ⟨rfl, hbj⟩
    · exact ⟨hk.symm, hb⟩
  intro a b h
  induction h with
  | rel x y hxy =>
    by_cases hx : x = find parent i ∧ find parent i < parent.length
    · obtain ⟨rfl, hlt⟩ := hx
      rw [parentStep, getD_set_self _ _ _ _ hlt] at hxy
      rw [← hxy]
      right
      refine ⟨?_, hri.2, hrj.2⟩
      rw [hri.1, hrj.1, hkey]
    · have hold : parentStep parent x y := by
        rw [parentStep] at hxy ⊢
        rcases Decidable.not_and_iff_or_not.mp hx with hne | hge
        · rw [getD_set_ne _ _ _ _ _ hne] at hxy
          exact hxy
        · rw [List.set_eq_of_length_le (Nat.le_of_not_lt hge)] at hxy
          exact hxy
      exact hinv x y (Relation.EqvGen.rel x y hold)
  | refl x => exact Or.inl rfl
  | symm x y hxy ih =>
    rcases ih with heq | ⟨hk, h1, h2⟩
    · exact Or.inl heq.symm
    · exact Or.inr ⟨hk.symm, h2, h1⟩
  | trans x y z hxy hyz ih1 ih2 =>
    rcases ih1 with heq1 | ⟨hk1, hx1, hy1⟩
    · rw [heq1]
      exact ih2
    · rcases ih2 with heq2 | ⟨hk2, hy2, hz2⟩
      · rw [← heq2]
        exact Or.inr ⟨hk1, hx1, hy1⟩
      · exact Or.inr ⟨hk1.trans hk2, hx1, hz2⟩

theorem mergeStep_blockInv (eng : CompanyDedupEngine) (rows0 : List Row) (st : MergeState)
    (p : Nat × Nat)
    (hkey : (rowAt rows0 p.1).block_key = (rowAt rows0 p.2).block_key)
    (hb1 : (rowAt rows0 p.1).base_name ≠ []) (hb2 : (rowAt rows0 p.2).base_name ≠ [])
    (hinv : BlockInv rows0 st.parent) : BlockInv rows0 (mergeStep eng st p).parent := by
  simp only [mergeStep]
  split
  · simp only [union]
    split
    · exact hinv
    · exact blockInv_union rows0 st.parent p.1 p.2 hinv hkey hb1 hb2
  · exact hinv

theorem mergePhase_blockInv (eng : CompanyDedupEngine) (df : List (Option Chars)) :
    BlockInv (initialRows eng df) (mergePhase eng df).parent := by
  rw [mergePhase]
  refine foldl_mem_inv (mergeStep eng)
    (fun (st : MergeState) => BlockInv (initialRows eng df) st.parent) _ _ ?_ ?_
  · intro st p hp hinv
    obtain ⟨hkey, hb1, hb2, _, _⟩ := candidatePairs_mem _ p hp
    exact mergeStep_blockInv eng _ st p hkey hb1 hb2 hinv
  · simp only [mergeInit, initialRows_length]
    exact blockInv_init _ _

theorem finalizeRow_cluster_id (parent : List Nat) (i : Nat) (r : Row) :
    (finalizeRow parent i r).cluster_id = find parent i := by
  simp only [finalizeRow]
  split
  · rfl
  · rfl

theorem finalizeRow_block_key (parent : List Nat) (i : Nat) (r : Row) :
    (finalizeRow parent i r).block_key = r.block_key := by
  simp only [finalizeRow]
  split
  · rfl
  · rfl

theorem finalizeRow_base_name (parent : List Nat) (i : Nat) (r : Row) :
    (finalizeRow parent i r).base_name = r.base_name := by
  simp only [finalizeRow]
  split
  · rfl
  · rfl

/-- Output row `k` of `process`: its cluster id is the union-find root of `k`,
and its block key and base name are those computed in step 1. -/
theorem process_fields (eng : CompanyDedupEngine) (df : List (Option Chars)) (k : Nat)
    (hk : k < df.length) :
    (rowAt (eng.process df) k).cluster_id = find (mergePhase eng df).parent k ∧
    (rowAt (eng.process df) k).block_key = (rowAt (initialRows eng df) k).block_key ∧
    (rowAt (eng.process df) k).base_name = (rowAt (initialRows eng df) k).base_name := by
  obtain ⟨cn, sz, hout⟩ := process_rowAt eng df k hk
  obtain ⟨c, q, hmr⟩ := mergePhase_rowAt eng df k
  rw [hout]
  refine ⟨?_, ?_, ?_⟩
  · show (finalizeRow _ k _).cluster_id = _
    exact finalizeRow_cluster_id _ _ _
  · show (finalizeRow _ k _).block_key = _
    rw [finalizeRow_block_key, hmr]
  · show (finalizeRow _ k _).base_name = _
    rw [finalizeRow_base_name, hmr]

/-- C3: pairs are evaluated by the similarity matcher only when both rows sit
in the same block with non-empty base names, and two distinct output rows in
the same final cluster always share a block key and have non-empty base names
(so empty-base rows stay singletons). -/
theorem C3_blocking_safety (settings : Settings) (df : List (Option Chars))
    (p : Nat × Nat)
    (hp : p ∈ candidatePairs (initialRows (CompanyDedupEngine.init settings) df))
    (k m : Nat) (hk : k < df.length) (hm : m < df.length)
    (hcid : (rowAt ((CompanyDedupEngine.init settings).process df) k).cluster_id =
      (rowAt ((CompanyDedupEngine.init settings).process df) m).cluster_id) :
    ((rowAt (initialRows (CompanyDedupEngine.init settings) df) p.1).block_key =
       (rowAt (initialRows (CompanyDedupEngine.init settings) df) p.2).block_key ∧
     (rowAt (initialRows (CompanyDedupEngine.init settings) df) p.1).base_name ≠ [] ∧
     (rowAt (initialRows (CompanyDedupEngine.init settings) df) p.2).base_name ≠ []) ∧
    (k = m ∨
      ((rowAt ((CompanyDedupEngine.init settings).process df) k).block_key =
         (rowAt ((CompanyDedupEngine.init settings).process df) m).block_key ∧
       (rowAt ((CompanyDedupEngine.init settings).process df) k).base_name ≠ [] ∧
       (rowAt ((CompanyDedupEngine.init settings).process df) m).base_name ≠ [])) := by
  obtain ⟨hkey, hb1, hb2, _, _⟩ := candidatePairs_mem _ p hp
  refine ⟨⟨hkey, hb1, hb2⟩, ?_⟩
  obtain ⟨hck, hbk, hbasek⟩ := process_fields (CompanyDedupEngine.init settings) df k hk
  obtain ⟨hcm, hbm, hbasem⟩ := process_fields (CompanyDedupEngine.init settings) df m hm
  rw [hck, hcm] at hcid
  have hconn : Relation.EqvGen (parentStep (mergePhase (CompanyDedupEngine.init settings) df).parent) k m := by
    refine Relation.EqvGen.trans _ _ _ (find_conn _ k) ?_
    rw [hcid]
    exact Relation.EqvGen.symm _ _ (find_conn _ m)
  rcases mergePhase_blockInv (CompanyDedupEngine.init settings) df k m hconn with heq | ⟨h1, h2, h3⟩
  · exact Or.inl heq
  · right
    rw [hbk, hbm, hbasek, hbasem]
    exact ⟨h1, h2, h3⟩

theorem C3_witness :
    0 = 1 ∨
      ((rowAt ((CompanyDedupEngine.init {}).process [some ("IBM").data, some ("IBM").data]) 0).block_key =
         (rowAt ((CompanyDedupEngine.init {}).process [some ("IBM").data, some ("IBM").data]) 1).block_key ∧
       (rowAt ((CompanyDedupEngine.init {}).process [some ("IBM").data, some ("IBM").data]) 0).base_name ≠ [] ∧
       (rowAt ((CompanyDedupEngine.init {}).process [some ("IBM").data, some ("IBM").data]) 1).base_name ≠ []) :=
  (C3_blocking_safety {} [some ("IBM").data, some ("IBM").data] (0, 1) (by decide)
    0 1 (by decide) (by decide) (by decide)).2

/-!  Error handling of construction (C9). -/

/-- C9 fails on the code: `__init__` performs no range validation.  An engine
built with hard=2 and soft=1.5 (both outside [0,1]) is accepted, stores the
values unchanged, and `process` silently produces clusters under them — here
two byte-identical names "IBM" stay in different clusters. -/
theorem C9_counterexample :
    (CompanyDedupEngine.init { hard := some 2, soft := some (mkRat 3 2) }).hard_threshold = 2 ∧
    (CompanyDedupEngine.init { hard := some 2, soft := some (mkRat 3 2) }).soft_threshold
      = mkRat 3 2 ∧
    ((CompanyDedupEngine.init { hard := some 2, soft := some (mkRat 3 2) }).process
      [some ("IBM").data, some ("IBM").data]).length = 2 ∧
    (rowAt ((CompanyDedupEngine.init { hard := some 2, soft := some (mkRat 3 2) }).process
      [some ("IBM").data, some ("IBM").data]) 0).cluster_id ≠
    (rowAt ((CompanyDedupEngine.init { hard := some 2, soft := some (mkRat 3 2) }).process
      [some ("IBM").data, some ("IBM").data]) 1).cluster_id := by
  refine ⟨rfl, rfl, by decide, by decide⟩

/-- C9 amended: construction never validates configuration values; whatever
thresholds the settings carry are stored as-is (with defaults 0.90/0.85 only
when absent) and `process` runs to completion on them for every input. -/
theorem C9_no_validation (settings : Settings) :
    (CompanyDedupEngine.init settings).hard_threshold = settings.hard.getD (mkRat 90 100) ∧
    (CompanyDedupEngine.init settings).soft_threshold = settings.soft.getD (mkRat 85 100) ∧
    ∀ df : List (Option Chars), ((CompanyDedupEngine.init settings).process df).length
      = df.length :=
  ⟨rfl, rfl, fun df => process_length _ df⟩

/-- C10: token-sorted matching concatenates the sorted tokens without a
separator, so strings with different token multisets can compare equal:
"AB C" vs "A BC" (tokens AB,C against A,BC) both concatenate to "ABCC"-style
strings and match; such a pair ("X AB C" vs "X A BC", sharing one block) is
merged into one cluster purely through the soft-threshold branch (the run
uses hard=1.01 so the hard branch cannot fire; soft keeps its 0.85 default
and the Jaro-Winkler ratio 173/180 passes it). -/
theorem C10_token_sorted_weakness :
    CompanyDedupEngine.get_token_sorted_match ("AB C").data ("A BC").data = true ∧
    (pySplit ("AB C").data).count ("AB").data = 1 ∧
    (pySplit ("A BC").data).count ("AB").data = 0 ∧
    CompanyDedupEngine.get_token_sorted_match ("X AB C").data ("X A BC").data = true ∧
    (pySplit ("X AB C").data).count ("AB").data = 1 ∧
    (pySplit ("X A BC").data).count ("AB").data = 0 ∧
    ¬ (CompanyDedupEngine.get_ratio ("X AB C").data ("X A BC").data ≥
        (CompanyDedupEngine.init { hard := some (mkRat 101 100) }).hard_threshold) ∧
    CompanyDedupEngine.get_ratio ("X AB C").data ("X A BC").data ≥
        (CompanyDedupEngine.init { hard := some (mkRat 101 100) }).soft_threshold ∧
    (rowAt ((CompanyDedupEngine.init { hard := some (mkRat 101 100) }).process
      [some ("X AB C").data, some ("X A BC").data]) 0).cluster_id =
    (rowAt ((CompanyDedupEngine.init { hard := some (mkRat 101 100) }).process
      [some ("X AB C").data, some ("X A BC").data]) 1).cluster_id := by
  refine ⟨by decide, by decide, by decide, by decide, by decide, by decide, by decide,
    by decide, by decide⟩

/-!  The normalizer contract (C7). -/

/-- Mask predicate exactly as the claim words it: keep alphanumeric,
whitespace, '&', '/', '-' — with no mention of underscore. -/
def keepCharClaim (c : Char) : Bool :=
  c.isAlphanum || pySpace c || c = '&' || c = '/' || c = '-'

/-- The claim's normalize, transcribed literally from its words: null/NaN and
empty map to empty, upper-case, replace every character not in the claimed
preserved set by a space, collapse whitespace runs, trim. -/
def normalizeClaim (raw : Option Chars) : Chars :=
  match raw with
  | none => []
  | some s =>
    if s = [] then []
    else pyStrip (collapseWs ((s.map Char.toUpper).map (fun c => if keepCharClaim c then c else ' ')))

/-- Amended mask: the preserved set also contains the underscore, because the
regex class \w of the source is alphanumeric plus underscore. -/
def keepCharAmended (c : Char) : Bool :=
  (c.isAlphanum || c = '_') || pySpace c || c = '&' || c = '/' || c = '-'

/-- The amended claim's normalize: as `normalizeClaim` but with underscore in
the preserved set. -/
def normalizeAmended (raw : Option Chars) : Chars :=
  match raw with
  | none => []
  | some s =>
    if s = [] then []
    else pyStrip (collapseWs ((s.map Char.toUpper).map (fun c => if keepCharAmended c then c else ' ')))

/-- C7 fails on the code at the underscore: '_' is not alphanumeric (nor
whitespace, '&', '/', '-'), so the claim requires it to become a space, but
the source regex keeps every \w character and underscore is a word
character: normalize("A_B") = "A_B" while the claim's pipeline yields "A B". -/
theorem C7_counterexample :
    CompanyDedupEngine.normalize (some ("A_B").data) = ("A_B").data ∧
    normalizeClaim (some ("A_B").data) = ("A B").data ∧
    CompanyDedupEngine.normalize (some ("A_B").data) ≠ normalizeClaim (some ("A_B").data) ∧
    ('_').isAlphanum = false ∧ pySpace '_' = false ∧
    ¬ ('_' = '&' ∨ '_' = '/' ∨ '_' = '-') := by
  refine ⟨by decide, by decide, by decide, by decide, by decide, by decide⟩

/-- C7 amended: normalize maps null/NaN/empty input to the empty string and
otherwise upper-cases, replaces every character that is not alphanumeric,
underscore, whitespace, '&', '/' or '-' with a space, collapses whitespace
runs to single spaces and trims. -/
theorem C7_normalize (raw : Option Chars) :
    CompanyDedupEngine.normalize raw = normalizeAmended raw ∧
    CompanyDedupEngine.normalize none = [] ∧
    CompanyDedupEngine.normalize (some []) = [] := by
  refine ⟨?_, rfl, rfl⟩
  match raw with
  | none => rfl
  | some s => rfl

/-!  Suffix-chain stripping (C8). -/

/-- Space-prefixed concatenation of a list of appended suffixes. -/
def wsJoin : List Chars → Chars
  | [] => []
  | s :: rest => (' ' :: s) ++ wsJoin rest

/-- A base token followed by space-separated appended suffixes, the literal
concatenation the claim describes. -/
def buildName (b : Chars) (chain : List Chars) : Chars := b ++ wsJoin chain

/-- Decidable list-prefix relation on suffix chains. -/
def chainPre (c d : List Chars) : Prop := d.take c.length = c

theorem chainPre_iff (c d : List Chars) : chainPre c d ↔ ∃ t, c ++ t = d := by
  constructor
  · intro h
    have h2 := List.take_append_drop c.length d
    rw [h] at h2
    exact ⟨d.drop c.length, h2⟩
  · rintro ⟨t, rfl⟩
    show (c ++ t).take c.length = c
    simp

instance chainPre_decidable (c d : List Chars) : Decidable (chainPre c d) :=
  inferInstanceAs (Decidable (d.take c.length = c))

theorem chainPre_trans (c1 c2 c3 : List Chars) (h1 : chainPre c1 c2) (h2 : chainPre c2 c3) :
    chainPre c1 c3 := by
  obtain ⟨t1, rfl⟩ := (chainPre_iff c1 c2).mp h1
  obtain ⟨t2, rfl⟩ := (chainPre_iff _ c3).mp h2
  exact (chainPre_iff _ _).mpr ⟨t1 ++ t2, by simp⟩

theorem wsJoin_append (a b : List Chars) : wsJoin (a ++ b) = wsJoin a ++ wsJoin b := by
  induction a with
  | nil => rfl
  | cons s rest ih => simp [wsJoin, ih]

theorem wsJoin_length_ge (c : List Chars) : c.length ≤ (wsJoin c).length := by
  induction c with
  | nil => simp [wsJoin]
  | cons s rest ih =>
    simp only [wsJoin, List.length_append, List.length_cons]
    omega

theorem buildName_length_lt (b : Chars) (c c2 : List Chars) (hpre : chainPre c2 c)
    (hlt : c2.length < c.length) : (buildName b c2).length < (buildName b c).length := by
  obtain ⟨t, rfl⟩ := (chainPre_iff c2 c).mp hpre
  have ht : t ≠ [] := by
    intro h
    rw [h] at hlt
    simp at hlt
  simp only [buildName, wsJoin_append, List.length_append]
  have : 1 ≤ (wsJoin t).length := by
    match t, ht with
    | s :: rest, _ => simp [wsJoin]
  omega

theorem buildName_ne (b : Chars) (c c2 : List Chars) (hpre : chainPre c2 c)
    (hlt : c2.length < c.length) : buildName b c2 ≠ buildName b c := by
  intro h
  have := buildName_length_lt b c c2 hpre hlt
  rw [h] at this
  exact Nat.lt_irrefl _ this

theorem chain_le_buildName (b : Chars) (c : List Chars) :
    c.length ≤ (buildName b c).length := by
  simp only [buildName, List.length_append]
  have := wsJoin_length_ge c
  omega

theorem stripLoopFuel_build (sfxs : List Chars) (b : Chars) (chain : List Chars)
    (hb : stripPass sfxs b = b)
    (hstep : ∀ c, chainPre c chain → c ≠ [] → ∃ c2, chainPre c2 c ∧ c2.length < c.length ∧
      stripPass sfxs (buildName b c) = buildName b c2) :
    ∀ (fuel : Nat) (c : List Chars), chainPre c chain → c.length < fuel →
      stripLoopFuel sfxs fuel (buildName b c) = b := by
  intro fuel
  induction fuel with
  | zero => intro c _ h; cases h
  | succ f ih =>
    intro c hpre hlen
    by_cases hc : c = []
    · subst hc
      have hbb : buildName b [] = b := by simp [buildName, wsJoin]
      rw [hbb]
      simp only [stripLoopFuel]
      rw [hb]
      simp
    · obtain ⟨c2, hpre2, hlt2, hpass⟩ := hstep c hpre hc
      simp only [stripLoopFuel]
      rw [hpass]
      rw [if_neg (buildName_ne b c c2 hpre2 hlt2)]
      refine ih c2 (chainPre_trans c2 c chain hpre2 hpre) ?_
      have : c.length ≤ f := Nat.lt_succ_iff.mp hlen
      omega

/-- C8 fails on the code: the base token "PVT" is not itself a known suffix
and "LTD" is, yet their concatenation "PVT LTD" spells the longer known
suffix "PVT LTD", which strips as a whole: strip_suffixes returns the empty
string instead of the base token "PVT". -/
theorem C8_counterexample :
    (CompanyDedupEngine.init {}).strip_suffixes (buildName ("PVT").data [("LTD").data]) = [] ∧
    buildName ("PVT").data [("LTD").data] = ("PVT LTD").data ∧
    ("PVT").data ∉ (CompanyDedupEngine.init {}).suffixes ∧
    ("LTD").data ∈ (CompanyDedupEngine.init {}).suffixes ∧
    ([] : Chars) ≠ ("PVT").data := by
  refine ⟨by decide, by decide, by decide, by decide, by decide⟩

/-- C8 amended: strip_suffixes terminates on every input (each pass of its
loop either changes nothing, ending the loop, or strictly shortens the name),
and for a name built by space-concatenating known suffixes after a base
token it returns exactly the base token provided no suffix pattern matches
the bare base token and every pass strips whole appended suffixes only —
the condition the counterexample "PVT" + "LTD" violates, since a longer
known suffix can span the concatenation boundary and eat into the base. -/
theorem C8_suffix_chains (eng : CompanyDedupEngine) (b : Chars) (chain : List Chars)
    (hb : stripPass eng.suffixes b = b)
    (hstep : ∀ c, chainPre c chain → c ≠ [] →
      ∃ c2, chainPre c2 c ∧ c2.length < c.length ∧
        stripPass eng.suffixes (buildName b c) = buildName b c2) :
    eng.strip_suffixes (buildName b chain) = b ∧
    stripPass eng.suffixes (eng.strip_suffixes (buildName b chain)) =
      eng.strip_suffixes (buildName b chain) := by
  have hmain : eng.strip_suffixes (buildName b chain) = b := by
    rw [CompanyDedupEngine.strip_suffixes, stripLoop]
    refine stripLoopFuel_build eng.suffixes b chain hb hstep _ chain ?_ ?_
    · show chain.take chain.length = chain
      simp
    · have := chain_le_buildName b chain
      omega
  rw [hmain]
  exact ⟨rfl, hb⟩

theorem C8_witness :
    (CompanyDedupEngine.init {}).strip_suffixes
      (buildName ("FOO").data [("PVT LTD").data, ("LLC").data]) = ("FOO").data := by
  refine (C8_suffix_chains (CompanyDedupEngine.init {}) ("FOO").data
    [("PVT LTD").data, ("LLC").data] (by decide) ?_).1
  intro c hpre hne
  have hle : c.length ≤ 2 := by
    have h2 := congrArg List.length hpre
    rw [List.length_take] at h2
    have h3 : ([("PVT LTD").data, ("LLC").data] : List Chars).length = 2 := rfl
    rw [h3] at h2
    calc c.length = min c.length 2 := h2.symm
      _ ≤ 2 := Nat.min_le_right _ _
  match hlen : c.length, hle with
  | 0, _ => exact absurd (List.length_eq_zero.mp hlen) hne
  | 1, _ =>
    have hc : c = [("PVT LTD").data] := by
      have := hpre
      rw [chainPre, hlen] at this
      exact this.symm
    subst hc
    exact ⟨[], by decide, by decide, by decide⟩
  | 2, _ =>
    have hc : c = [("PVT LTD").data, ("LLC").data] := by
      have := hpre
      rw [chainPre, hlen] at this
      exact this.symm
    subst hc
    exact ⟨[("PVT LTD").data], by decide, by decide, by decide⟩

/-!  Characterization of the defaultdict grouping used for clusters (C6). -/

/-- Invariant of the grouping fold: after processing `done`, every bucket
holds exactly the processed indices with its key, every processed index has a
bucket, and keys are distinct. -/
def bucketsSpec (f : Nat → Nat) (done : List Nat) (bs : List (Nat × List Nat)) : Prop :=
  (∀ e ∈ bs, e.2 = done.filter (fun x => f x = e.1)) ∧
  (∀ x ∈ done, ∃ e ∈ bs, e.1 = f x) ∧
  (bs.map Prod.fst).Nodup

theorem bucketAdd_fst {κ : Type} [DecidableEq κ] (bs : List (κ × List Nat)) (k : κ) (i : Nat)
    (hany : bs.any (fun e => e.1 = k) = true) :
    (bucketAdd bs k i).map Prod.fst = bs.map Prod.fst := by
  simp only [bucketAdd, hany, if_true]
  rw [List.map_map]
  refine List.map_congr_left ?_
  intro e _
  by_cases he : e.1 = k
  · simp [he]
  · simp [he]

theorem bucketsSpec_add (f : Nat → Nat) (done : List Nat) (bs : List (Nat × List Nat))
    (a : Nat) (hspec : bucketsSpec f done bs) :
    bucketsSpec f (done ++ [a]) (bucketAdd bs (f a) a) := by
  obtain ⟨hmem, hcover, hnodup⟩ := hspec
  by_cases hany : bs.any (fun e => e.1 = f a) = true
  · refine ⟨?_, ?_, ?_⟩
    · intro e he
      simp only [bucketAdd, hany, if_true] at he
      obtain ⟨e0, he0, rfl⟩ := List.mem_map.mp he
      by_cases hk : e0.1 = f a
      · rw [if_pos hk]
        simp only [List.filter_append]
        rw [← hmem e0 he0]
        have : List.filter (fun x => decide (f x = e0.1)) [a] = [a] := by
          simp [hk]
        rw [this]
      · rw [if_neg hk]
        simp only [List.filter_append]
        rw [← hmem e0 he0]
        have : List.filter (fun x => decide (f x = e0.1)) [a] = [] := by
          simp
          intro hfa
          exact hk (by rw [← hfa])
        rw [this, List.append_nil]
    · intro x hx
      rcases List.mem_append.mp hx with hdone | hsingle
      · obtain ⟨e, he, hkey⟩ := hcover x hdone
        by_cases hk : e.1 = f a
        · refine ⟨(e.1, e.2 ++ [a]), ?_, hkey⟩
          simp only [bucketAdd, hany, if_true]
          refine List.mem_map.mpr ⟨e, he, ?_⟩
          rw [if_pos hk]
        · refine ⟨e, ?_, hkey⟩
          simp only [bucketAdd, hany, if_true]
          refine List.mem_map.mpr ⟨e, he, ?_⟩
          rw [if_neg hk]
      · obtain ⟨e, he, hkey⟩ := List.any_eq_true.mp hany
        rw [List.mem_singleton.mp hsingle]
        by_cases hk : e.1 = f a
        · refine ⟨(e.1, e.2 ++ [a]), ?_, by rw [of_decide_eq_true hkey]⟩
          simp only [bucketAdd, hany, if_true]
          refine List.mem_map.mpr ⟨e, he, ?_⟩
          rw [if_pos hk]
        · exact absurd (of_decide_eq_true hkey) hk
    · rw [bucketAdd_fst bs (f a) a hany]
      exact hnodup
  · have hanyf : bs.any (fun e => e.1 = f a) = false := Bool.eq_false_iff.mpr hany
    have hnotin : ∀ e ∈ bs, e.1 ≠ f a := by
      intro e he
      have := List.any_eq_false.mp hanyf e he
      simpa using this
    have hdone_none : ∀ x ∈ done, f x ≠ f a := by
      intro x hx hfx
      obtain ⟨e, he, hkey⟩ := hcover x hx
      exact hnotin e he (by rw [hkey, hfx])
    refine ⟨?_, ?_, ?_⟩
    · intro e he
      simp only [bucketAdd, hanyf] at he
      simp only [Bool.false_eq_true, if_false] at he
      rcases List.mem_append.mp he with hold | hnew
      · rw [hmem e hold]
        simp only [List.filter_append]
        have : List.filter (fun x => decide (f x = e.1)) [a] = [] := by
          simp
          intro hfa
          exact hnotin e hold (by rw [← hfa])
        rw [this, List.append_nil]
      · rw [List.mem_singleton.mp hnew]
        simp only [List.filter_append]
        have h1 : List.filter (fun x => decide (f x = f a)) done = [] := by
          rw [List.filter_eq_nil_iff]
          intro x hx
          simpa using hdone_none x hx
        have h2 : List.filter (fun x => decide (f x = f a)) [a] = [a] := by
          simp
        rw [h1, h2, List.nil_append]
    · intro x hx
      rcases List.mem_append.mp hx with hdone | hsingle
      · obtain ⟨e, he, hkey⟩ := hcover x hdone
        refine ⟨e, ?_, hkey⟩
        simp only [bucketAdd, hanyf]
        simp only [Bool.false_eq_true, if_false]
        exact List.mem_append.mpr (Or.inl he)
      · refine ⟨(f a, [a]), ?_, by rw [List.mem_singleton.mp hsingle]⟩
        simp only [bucketAdd, hanyf]
        simp only [Bool.false_eq_true, if_false]
        exact List.mem_append.mpr (Or.inr (List.mem_singleton.mpr rfl))
    · simp only [bucketAdd, hanyf]
      simp only [Bool.false_eq_true, if_false]
      rw [List.map_append]
      rw [List.nodup_append]
      refine ⟨hnodup, List.nodup_singleton _, ?_⟩
      intro x hx hxa
      simp only [List.map_cons, List.map_nil, List.mem_singleton] at hxa
      obtain ⟨e, he, rfl⟩ := List.mem_map.mp hx
      exact hnotin e he hxa

theorem groupBuckets_spec_aux (f : Nat → Nat) :
    ∀ (l done : List Nat) (bs : List (Nat × List Nat)),
    bucketsSpec f done bs →
    bucketsSpec f (done ++ l) (l.foldl (fun cs a => bucketAdd cs (f a) a) bs)
  | [], done, bs, hspec => by simpa using hspec
  | a :: l, done, bs, hspec => by
    have step := bucketsSpec_add f done bs a hspec
    have rec := groupBuckets_spec_aux f l (done ++ [a]) (bucketAdd bs (f a) a) step
    rw [List.foldl_cons]
    have : done ++ a :: l = (done ++ [a]) ++ l := by simp
    rw [this]
    exact rec

theorem groupBuckets_spec (f : Nat → Nat) (l : List Nat) :
    bucketsSpec f l (groupBuckets f id l) := by
  have h0 : bucketsSpec f [] [] := by
    refine ⟨?_, ?_, ?_⟩
    · intro e he
      cases he
    · intro x hx
      cases hx
    · exact List.nodup_nil
  have := groupBuckets_spec_aux f l [] [] h0
  rw [List.nil_append] at this
  exact this

/-!  Properties of the canonical-name choice (C6). -/

theorem dedupFirst_aux_mem :
    ∀ (l acc : List Chars) (x : Chars),
    (x ∈ l.foldl (fun acc y => if y ∈ acc then acc else acc ++ [y]) acc) ↔ x ∈ acc ∨ x ∈ l
  | [], acc, x => by simp
  | a :: l, acc, x => by
    rw [List.foldl_cons, dedupFirst_aux_mem l _ x]
    by_cases ha : a ∈ acc
    · rw [if_pos ha]
      constructor
      · rintro (h | h)
        · exact Or.inl h
        · exact Or.inr (List.mem_cons_of_mem a h)
      · rintro (h | h)
        · exact Or.inl h
        · rcases List.mem_cons.mp h with rfl | h2
          · exact Or.inl ha
          · exact Or.inr h2
    · rw [if_neg ha]
      constructor
      · rintro (h | h)
        · rcases List.mem_append.mp h with h2 | h2
          · exact Or.inl h2
          · exact Or.inr (List.mem_cons.mpr (Or.inl (List.mem_singleton.mp h2)))
        · exact Or.inr (List.mem_cons_of_mem a h)
      · rintro (h | h)
        · exact Or.inl (List.mem_append.mpr (Or.inl h))
        · rcases List.mem_cons.mp h with rfl | h2
          · exact Or.inl (List.mem_append.mpr (Or.inr (List.mem_singleton.mpr rfl)))
          · exact Or.inr h2

theorem dedupFirst_mem (l : List Chars) (x : Chars) : x ∈ dedupFirst l ↔ x ∈ l := by
  rw [dedupFirst, dedupFirst_aux_mem]
  simp

theorem foldl_max_ge_init : ∀ (l : List Nat) (b : Nat), b ≤ l.foldl max b
  | [], _ => le_refl _
  | a :: l, b => le_trans (le_max_left b a) (foldl_max_ge_init l (max b a))

theorem foldl_max_le_of_mem : ∀ (l : List Nat) (b x : Nat), x ∈ l → x ≤ l.foldl max b
  | a :: l, b, x, hx => by
    rcases List.mem_cons.mp hx with rfl | h
    · exact le_trans (le_max_right b x) (foldl_max_ge_init l (max b x))
    · exact foldl_max_le_of_mem l (max b a) x h

theorem foldl_max_mem : ∀ (l : List Nat) (b : Nat), l.foldl max b = b ∨ l.foldl max b ∈ l
  | [], _ => Or.inl rfl
  | a :: l, b => by
    rw [List.foldl_cons]
    rcases foldl_max_mem l (max b a) with h | h
    · rw [h]
      rcases max_choice b a with h2 | h2
      · exact Or.inl h2
      · rw [h2]
        exact Or.inr (List.mem_cons_self a l)
    · exact Or.inr (List.mem_cons_of_mem a h)

theorem mem_insertLenAsc (x y : Chars) : ∀ (l : List Chars),
    y ∈ insertLenAsc x l ↔ y = x ∨ y ∈ l
  | [] => by simp [insertLenAsc]
  | z :: l => by
    simp only [insertLenAsc]
    by_cases h : z.length < x.length
    · rw [if_pos h, List.mem_cons, mem_insertLenAsc x y l, List.mem_cons]
      tauto
    · rw [if_neg h, List.mem_cons, List.mem_cons]

theorem mem_sortLenAsc (y : Chars) : ∀ (l : List Chars), y ∈ sortLenAsc l ↔ y ∈ l
  | [] => Iff.rfl
  | x :: l => by
    show y ∈ insertLenAsc x (sortLenAsc l) ↔ _
    rw [mem_insertLenAsc, mem_sortLenAsc y l, List.mem_cons]

theorem sortLenAsc_eq_nil : ∀ (l : List Chars), sortLenAsc l = [] ↔ l = []
  | [] => by simp [sortLenAsc]
  | x :: l => by
    constructor
    · intro h
      have : x ∈ sortLenAsc (x :: l) := (mem_sortLenAsc x (x :: l)).mpr (List.mem_cons_self x l)
      rw [h] at this
      cases this
    · intro h
      cases h

theorem headD_mem (l : List Chars) (d : Chars) (h : l ≠ []) : l.headD d ∈ l := by
  cases l with
  | nil => exact absurd rfl h
  | cons a t => exact List.mem_cons_self a t

theorem insertLenAsc_headD_le (x : Chars) : ∀ (l : List Chars),
    ((insertLenAsc x l).headD []).length ≤ x.length
  | [] => le_refl _
  | z :: l => by
    simp only [insertLenAsc]
    by_cases h : z.length < x.length
    · rw [if_pos h]
      simp only [List.headD_cons]
      omega
    · rw [if_neg h]
      simp

theorem sortLenAsc_headD_le (l : List Chars) (y : Chars) (hy : y ∈ l) :
    ((sortLenAsc l).headD []).length ≤ y.length := by
  induction l with
  | nil => cases hy
  | cons x l ih =>
    show (((insertLenAsc x (sortLenAsc l)).headD [])).length ≤ y.length
    rcases List.mem_cons.mp hy with rfl | hyl
    · exact insertLenAsc_headD_le y (sortLenAsc l)
    · have hle := ih hyl
      rcases hsort : sortLenAsc l with _ | ⟨z, t⟩
      · have : l = [] := (sortLenAsc_eq_nil l).mp hsort
        subst this
        cases hyl
      · rw [hsort] at hle
        simp only [insertLenAsc]
        split
        · simp only [List.headD_cons]
          simpa using hle
        · simp only [List.headD_cons]
          rename_i hzx
          simp only [List.headD_cons] at hle
          omega

/-- Everything C6 claims about the value `canonicalOf rows members`, phrased
against the list of non-empty member base names. -/
theorem canonicalOf_spec (rows : List Row) (members : List Nat) :
    (members.filterMap (fun idx => if (rowAt rows idx).base_name = [] then none
        else some (rowAt rows idx).base_name) = [] →
      canonicalOf rows members = (rowAt rows (members.headD 0)).normalized_name) ∧
    (members.filterMap (fun idx => if (rowAt rows idx).base_name = [] then none
        else some (rowAt rows idx).base_name) ≠ [] →
      (canonicalOf rows members ∈ members.filterMap (fun idx =>
          if (rowAt rows idx).base_name = [] then none else some (rowAt rows idx).base_name) ∧
       (∀ x ∈ members.filterMap (fun idx => if (rowAt rows idx).base_name = [] then none
            else some (rowAt rows idx).base_name),
          (members.filterMap (fun idx => if (rowAt rows idx).base_name = [] then none
            else some (rowAt rows idx).base_name)).count x ≤
          (members.filterMap (fun idx => if (rowAt rows idx).base_name = [] then none
            else some (rowAt rows idx).base_name)).count (canonicalOf rows members)) ∧
       (∀ x ∈ members.filterMap (fun idx => if (rowAt rows idx).base_name = [] then none
            else some (rowAt rows idx).base_name),
          (members.filterMap (fun idx => if (rowAt rows idx).base_name = [] then none
            else some (rowAt rows idx).base_name)).count x =
          (members.filterMap (fun idx => if (rowAt rows idx).base_name = [] then none
            else some (rowAt rows idx).base_name)).count (canonicalOf rows members) →
          (canonicalOf rows members).length ≤ x.length))) := by
  set B := members.filterMap (fun idx => if (rowAt rows idx).base_name = [] then none
    else some (rowAt rows idx).base_name) with hB
  constructor
  · intro hnil
    rw [canonicalOf, ← hB, if_pos hnil]
  · intro hne
    have hcanon : canonicalOf rows members =
        (sortLenAsc ((dedupFirst B).filter (fun b => B.count b =
          ((dedupFirst B).map (fun b => B.count b)).foldl max 0))).headD [] := by
      rw [canonicalOf, ← hB, if_neg hne]
    set D := dedupFirst B with hD
    set M := ((D.map (fun b => B.count b)).foldl max 0 : Nat) with hM
    set C := D.filter (fun b => B.count b = M) with hC
    have hMpos : 1 ≤ M := by
      have hb0 : B.headD [] ∈ B := headD_mem B [] hne
      have hd0 : B.headD [] ∈ D := (dedupFirst_mem B _).mpr hb0
      have hcpos : 0 < B.count (B.headD []) := List.count_pos_iff.mpr hb0
      have hle : B.count (B.headD []) ≤ M :=
        foldl_max_le_of_mem _ 0 _ (List.mem_map.mpr ⟨_, hd0, rfl⟩)
      omega
    have hex : ∃ y ∈ D, B.count y = M := by
      rcases foldl_max_mem (D.map (fun b => B.count b)) 0 with h | h
      · rw [← hM] at h
        omega
      · rw [← hM] at h
        obtain ⟨y, hy, hcy⟩ := List.mem_map.mp h
        exact ⟨y, hy, hcy⟩
    have hCne : C ≠ [] := by
      obtain ⟨y, hy, hcy⟩ := hex
      intro h
      have hyC : y ∈ C := List.mem_filter.mpr ⟨hy, by simp [hcy]⟩
      rw [h] at hyC
      cases hyC
    have hsne : sortLenAsc C ≠ [] := fun h => hCne ((sortLenAsc_eq_nil C).mp h)
    have hres : (sortLenAsc C).headD [] ∈ C :=
      (mem_sortLenAsc _ C).mp (headD_mem (sortLenAsc C) [] hsne)
    have hresD : (sortLenAsc C).headD [] ∈ D := (List.mem_filter.mp hres).1
    have hresM : B.count ((sortLenAsc C).headD []) = M := by
      have := (List.mem_filter.mp hres).2
      simpa using this
    rw [hcanon]
    refine ⟨?_, ?_, ?_⟩
    · exact (dedupFirst_mem B _).mp hresD
    · intro x hx
      rw [hresM]
      exact foldl_max_le_of_mem _ 0 _
        (List.mem_map.mpr ⟨x, (dedupFirst_mem B x).mpr hx, rfl⟩)
    · intro x hx hcx
      have hxD : x ∈ D := (dedupFirst_mem B x).mpr hx
      have hxC : x ∈ C := List.mem_filter.mpr ⟨hxD, by rw [hcx, hresM]; simp⟩
      exact sortLenAsc_headD_le C x hxC

theorem setCanonFold_not_mem (c0 : Chars) (s0 : Nat) :
    ∀ (idxs : List Nat) (rows : List Row) (k : Nat), k ∉ idxs →
    rowAt (idxs.foldl (fun rs idx => modifyAt rs idx
      (fun r => { r with canonical_name := c0, cluster_size := s0 })) rows) k = rowAt rows k
  | [], _, _, _ => rfl
  | idx :: idxs, rows, k, hk => by
    rw [List.foldl_cons]
    have h1 : k ∉ idxs := fun h => hk (List.mem_cons_of_mem idx h)
    have h2 : k ≠ idx := fun h => hk (by rw [h]; exact List.mem_cons_self idx idxs)
    rw [setCanonFold_not_mem c0 s0 idxs _ k h1]
    simp only [rowAt]
    rw [getD_modifyAt_ne _ _ _ _ _ h2]

theorem assignCluster_not_mem (rows : List Row) (e : Nat × List Nat) (k : Nat) (hk : k ∉ e.2) :
    rowAt (assignCluster rows e) k = rowAt rows k := by
  simp only [assignCluster]
  exact setCanonFold_not_mem _ _ e.2 rows k hk

theorem canonicalFold_not_mem :
    ∀ (entries : List (Nat × List Nat)) (rows : List Row) (k : Nat),
    (∀ e ∈ entries, k ∉ e.2) →
    rowAt (entries.foldl assignCluster rows) k = rowAt rows k
  | [], _, _, _ => rfl
  | e :: es, rows, k, h => by
    rw [List.foldl_cons,
      canonicalFold_not_mem es _ k (fun e2 he2 => h e2 (List.mem_cons_of_mem e he2)),
      assignCluster_not_mem rows e k (h e (List.mem_cons_self e es))]

theorem setCanonFold_at_mem (c0 : Chars) (s0 : Nat) :
    ∀ (idxs : List Nat) (rows : List Row) (k : Nat), k ∈ idxs → k < rows.length →
    rowAt (idxs.foldl (fun rs idx => modifyAt rs idx
      (fun r => { r with canonical_name := c0, cluster_size := s0 })) rows) k =
      { rowAt rows k with canonical_name := c0, cluster_size := s0 }
  | [], _, _, hk, _ => absurd hk (List.not_mem_nil _)
  | idx :: idxs, rows, k, hk, hlen => by
    rw [List.foldl_cons]
    by_cases hmem : k ∈ idxs
    · rw [setCanonFold_at_mem c0 s0 idxs _ k hmem (by rw [modifyAt_length]; exact hlen)]
      obtain ⟨cn, sz, hmod⟩ := modifyCanon_rowAt rows idx k c0 s0
      rw [hmod]
    · have hkidx : k = idx := by
        rcases List.mem_cons.mp hk with h | h
        · exact h
        · exact absurd h hmem
      subst hkidx
      rw [setCanonFold_not_mem c0 s0 idxs _ k hmem]
      simp only [rowAt]
      rw [getD_modifyAt_self _ _ _ _ hlen]

theorem assignCluster_at_mem (rows : List Row) (e : Nat × List Nat) (k : Nat)
    (hk : k ∈ e.2) (hlen : k < rows.length) :
    rowAt (assignCluster rows e) k =
      { rowAt rows k with
        canonical_name := canonicalOf rows e.2,
        cluster_size := e.2.length } := by
  simp only [assignCluster]
  exact setCanonFold_at_mem _ _ e.2 rows k hk hlen

theorem assignCluster_core (rows : List Row) (e : Nat × List Nat) (idx : Nat) :
    (rowAt (assignCluster rows e) idx).base_name = (rowAt rows idx).base_name ∧
    (rowAt (assignCluster rows e) idx).normalized_name = (rowAt rows idx).normalized_name := by
  obtain ⟨cn, sz, h⟩ := assignCluster_rowAt rows e idx
  rw [h]
  exact ⟨rfl, rfl⟩

theorem canonicalOf_congr (rows rows2 : List Row) (members : List Nat)
    (h : ∀ idx, (rowAt rows2 idx).base_name = (rowAt rows idx).base_name ∧
      (rowAt rows2 idx).normalized_name = (rowAt rows idx).normalized_name) :
    canonicalOf rows2 members = canonicalOf rows members := by
  have hbn : members.filterMap (fun idx => if (rowAt rows2 idx).base_name = [] then none
        else some (rowAt rows2 idx).base_name)
      = members.filterMap (fun idx => if (rowAt rows idx).base_name = [] then none
        else some (rowAt rows idx).base_name) :=
    List.filterMap_congr (fun a _ => by rw [(h a).1])
  simp only [canonicalOf, hbn, (h (members.headD 0)).2]

theorem canonicalFold_at :
    ∀ (entries : List (Nat × List Nat)) (rows : List Row) (k : Nat) (e : Nat × List Nat),
    e ∈ entries → k ∈ e.2 →
    (∀ e2 ∈ entries, k ∈ e2.2 → e2.2 = e.2) →
    k < rows.length →
    rowAt (entries.foldl assignCluster rows) k =
      { rowAt rows k with canonical_name := canonicalOf rows e.2, cluster_size := e.2.length }
  | [], _, _, _, he, _, _, _ => absurd he (List.not_mem_nil _)
  | e1 :: rest, rows, k, e, he, hk, honce, hlen => by
    rw [List.foldl_cons]
    have hcore : ∀ idx,
        (rowAt (assignCluster rows e1) idx).base_name = (rowAt rows idx).base_name ∧
        (rowAt (assignCluster rows e1) idx).normalized_name =
          (rowAt rows idx).normalized_name :=
      fun idx => assignCluster_core rows e1 idx
    have hlen1 : k < (assignCluster rows e1).length := by
      rw [assignCluster_length]
      exact hlen
    by_cases hk1 : k ∈ e1.2
    · have he1 : e1.2 = e.2 := honce e1 (List.mem_cons_self e1 rest) hk1
      have hstep := assignCluster_at_mem rows e1 k hk1 hlen
      by_cases hrest : ∃ e2 ∈ rest, k ∈ e2.2
      · obtain ⟨e2, he2, hk2⟩ := hrest
        have honce2 : ∀ e3 ∈ rest, k ∈ e3.2 → e3.2 = e2.2 := by
          intro e3 he3 hk3
          rw [honce e3 (List.mem_cons_of_mem e1 he3) hk3,
            honce e2 (List.mem_cons_of_mem e1 he2) hk2]
        have hrec := canonicalFold_at rest (assignCluster rows e1) k e2 he2 hk2 honce2 hlen1
        rw [hrec, hstep]
        have hco : canonicalOf (assignCluster rows e1) e2.2 = canonicalOf rows e.2 := by
          rw [canonicalOf_congr rows (assignCluster rows e1) e2.2 hcore,
            honce e2 (List.mem_cons_of_mem e1 he2) hk2]
        rw [hco, honce e2 (List.mem_cons_of_mem e1 he2) hk2]
      · push_neg at hrest
        rw [canonicalFold_not_mem rest _ k hrest, hstep, he1]
    · have heq1 : rowAt (assignCluster rows e1) k = rowAt rows k :=
        assignCluster_not_mem rows e1 k hk1
      have herest : e ∈ rest := by
        rcases List.mem_cons.mp he with rfl | h
        · exact absurd hk hk1
        · exact h
      have honce2 : ∀ e3 ∈ rest, k ∈ e3.2 → e3.2 = e.2 :=
        fun e3 he3 hk3 => honce e3 (List.mem_cons_of_mem e1 he3) hk3
      have hrec := canonicalFold_at rest (assignCluster rows e1) k e herest hk honce2 hlen1
      rw [hrec, heq1, canonicalOf_congr rows (assignCluster rows e1) e.2 hcore]

theorem process_core_eq (eng : CompanyDedupEngine) (df : List (Option Chars)) (m : Nat) :
    (rowAt (eng.process df) m).base_name =
      (rowAt (finalizePhase (mergePhase eng df)) m).base_name ∧
    (rowAt (eng.process df) m).normalized_name =
      (rowAt (finalizePhase (mergePhase eng df)) m).normalized_name := by
  obtain ⟨cn, sz, h⟩ :=
    canonicalPhase_rowAt (mergePhase eng df) (finalizePhase (mergePhase eng df)) m
  have hpr : eng.process df =
      canonicalPhase (mergePhase eng df) (finalizePhase (mergePhase eng df)) := rfl
  rw [hpr, h]
  exact ⟨rfl, rfl⟩

/-- C6: for each finalized cluster (the rows carrying one final cluster_id),
the canonical name of every member is: the first member's normalized name
when no member has a non-empty base name; otherwise a member base name of
maximal frequency, shortest among the maximal ones; and all members carry the
same canonical name. -/
theorem C6_canonical_selection (settings : Settings) (df : List (Option Chars)) (k : Nat)
    (out : List Row) (members : List Nat) (bs : List Chars)
    (hk : k < df.length)
    (hout : out = (CompanyDedupEngine.init settings).process df)
    (hmembers : members = (List.range df.length).filter
      (fun m => (rowAt out m).cluster_id = (rowAt out k).cluster_id))
    (hbs : bs = members.filterMap
      (fun m => if (rowAt out m).base_name = [] then none
        else some (rowAt out m).base_name)) :
    (bs = [] → (rowAt out k).canonical_name =
      (rowAt out (members.headD 0)).normalized_name) ∧
    (bs ≠ [] → (rowAt out k).canonical_name ∈ bs ∧
      (∀ x ∈ bs, bs.count x ≤ bs.count (rowAt out k).canonical_name) ∧
      (∀ x ∈ bs, bs.count x = bs.count (rowAt out k).canonical_name →
        (rowAt out k).canonical_name.length ≤ x.length)) ∧
    (∀ m ∈ members, (rowAt out m).canonical_name = (rowAt out k).canonical_name) := by
  subst hbs
  subst hmembers
  subst hout
  have hcid : ∀ m, m < df.length →
      (rowAt ((CompanyDedupEngine.init settings).process df) m).cluster_id =
        find (mergePhase (CompanyDedupEngine.init settings) df).parent m :=
    fun m hm => (process_fields (CompanyDedupEngine.init settings) df m hm).1
  have hnrows : (mergePhase (CompanyDedupEngine.init settings) df).rows.length = df.length :=
    mergePhase_rows_length _ df
  have hmem_eq : (List.range df.length).filter
        (fun m => decide ((rowAt ((CompanyDedupEngine.init settings).process df) m).cluster_id =
          (rowAt ((CompanyDedupEngine.init settings).process df) k).cluster_id))
      = (List.range df.length).filter
        (fun m => decide (find (mergePhase (CompanyDedupEngine.init settings) df).parent m =
          find (mergePhase (CompanyDedupEngine.init settings) df).parent k)) := by
    refine List.filter_congr ?_
    intro m hm
    exact decide_eq_decide.mpr (by rw [hcid m (List.mem_range.mp hm), hcid k hk])
  obtain ⟨hbucket, hcover, hkeys⟩ :=
    groupBuckets_spec (find (mergePhase (CompanyDedupEngine.init settings) df).parent)
      (List.range (mergePhase (CompanyDedupEngine.init settings) df).rows.length)
  have hkmem0 : k ∈ List.range (mergePhase (CompanyDedupEngine.init settings) df).rows.length :=
    List.mem_range.mpr (by rw [hnrows]; exact hk)
  obtain ⟨e, he, hekey⟩ := hcover k hkmem0
  have hee : e.2 = (List.range (mergePhase (CompanyDedupEngine.init settings) df).rows.length).filter
      (fun x => decide (find (mergePhase (CompanyDedupEngine.init settings) df).parent x =
        find (mergePhase (CompanyDedupEngine.init settings) df).parent k)) := by
    rw [hbucket e he]
    refine List.filter_congr ?_
    intro x _
    exact decide_eq_decide.mpr (by rw [hekey])
  have hmembers_eq : e.2 = (List.range df.length).filter
      (fun m => decide ((rowAt ((CompanyDedupEngine.init settings).process df) m).cluster_id =
        (rowAt ((CompanyDedupEngine.init settings).process df) k).cluster_id)) := by
    rw [hee, hnrows, ← hmem_eq]
  have honceAll : ∀ x, x ∈ e.2 →
      ∀ e2 ∈ clustersOf (mergePhase (CompanyDedupEngine.init settings) df),
      x ∈ e2.2 → e2.2 = e.2 := by
    intro x hx e2 he2 hx2
    rw [hbucket e2 he2] at hx2
    have hkey2 : find (mergePhase (CompanyDedupEngine.init settings) df).parent x = e2.1 :=
      of_decide_eq_true (List.mem_filter.mp hx2).2
    have hxk : find (mergePhase (CompanyDedupEngine.init settings) df).parent x =
        find (mergePhase (CompanyDedupEngine.init settings) df).parent k := by
      have hx3 := hee ▸ hx
      exact of_decide_eq_true (List.mem_filter.mp hx3).2
    rw [hbucket e2 he2, hee]
    refine List.filter_congr ?_
    intro y _
    exact decide_eq_decide.mpr (by rw [← hkey2, ← hxk])
  have hkinE : k ∈ e.2 := by
    rw [hee]
    refine List.mem_filter.mpr ⟨hkmem0, by simp⟩
  have hklenF : k < (finalizePhase (mergePhase (CompanyDedupEngine.init settings) df)).length := by
    rw [finalizePhase_length, hnrows]
    exact hk
  have hval : rowAt ((CompanyDedupEngine.init settings).process df) k =
      { rowAt (finalizePhase (mergePhase (CompanyDedupEngine.init settings) df)) k with
        canonical_name := canonicalOf
          (finalizePhase (mergePhase (CompanyDedupEngine.init settings) df)) e.2,
        cluster_size := e.2.length } :=
    canonicalFold_at (clustersOf (mergePhase (CompanyDedupEngine.init settings) df))
      (finalizePhase (mergePhase (CompanyDedupEngine.init settings) df)) k e he hkinE
      (honceAll k hkinE) hklenF
  have hbase : ∀ m, (rowAt ((CompanyDedupEngine.init settings).process df) m).base_name =
      (rowAt (finalizePhase (mergePhase (CompanyDedupEngine.init settings) df)) m).base_name :=
    fun m => (process_core_eq (CompanyDedupEngine.init settings) df m).1
  have hnorm : ∀ m, (rowAt ((CompanyDedupEngine.init settings).process df) m).normalized_name =
      (rowAt (finalizePhase (mergePhase (CompanyDedupEngine.init settings) df)) m).normalized_name :=
    fun m => (process_core_eq (CompanyDedupEngine.init settings) df m).2
  have hBS : ((List.range df.length).filter
        (fun m => decide ((rowAt ((CompanyDedupEngine.init settings).process df) m).cluster_id =
          (rowAt ((CompanyDedupEngine.init settings).process df) k).cluster_id))).filterMap
        (fun m => if (rowAt ((CompanyDedupEngine.init settings).process df) m).base_name = []
          then none else some (rowAt ((CompanyDedupEngine.init settings).process df) m).base_name)
      = e.2.filterMap (fun m =>
          if (rowAt (finalizePhase (mergePhase (CompanyDedupEngine.init settings) df)) m).base_name = []
          then none
          else some (rowAt (finalizePhase (mergePhase (CompanyDedupEngine.init settings) df)) m).base_name) := by
    rw [← hmembers_eq]
    exact List.filterMap_congr (fun m _ => by rw [hbase m])
  obtain ⟨hspec1, hspec2⟩ :=
    canonicalOf_spec (finalizePhase (mergePhase (CompanyDedupEngine.init settings) df)) e.2
  have hcanproj : (rowAt ((CompanyDedupEngine.init settings).process df) k).canonical_name =
      canonicalOf (finalizePhase (mergePhase (CompanyDedupEngine.init settings) df)) e.2 := by
    rw [hval]
  refine ⟨?_, ?_, ?_⟩
  · intro hnil
    rw [hBS] at hnil
    rw [hcanproj, hspec1 hnil, ← hmembers_eq, hnorm (e.2.headD 0)]
  · intro hne
    rw [hBS] at hne
    obtain ⟨hin, hmax, hmin⟩ := hspec2 hne
    rw [hcanproj, hBS]
    exact ⟨hin, hmax, hmin⟩
  · intro m hm
    rw [← hmembers_eq] at hm
    have hvalm : rowAt ((CompanyDedupEngine.init settings).process df) m =
        { rowAt (finalizePhase (mergePhase (CompanyDedupEngine.init settings) df)) m with
          canonical_name := canonicalOf
            (finalizePhase (mergePhase (CompanyDedupEngine.init settings) df)) e.2,
          cluster_size := e.2.length } :=
      canonicalFold_at (clustersOf (mergePhase (CompanyDedupEngine.init settings) df))
        (finalizePhase (mergePhase (CompanyDedupEngine.init settings) df)) m e he hm
        (honceAll m hm)
        (by
          rw [finalizePhase_length]
          have hmr : m ∈ List.range (mergePhase (CompanyDedupEngine.init settings) df).rows.length := by
            have := hee ▸ hm
            exact (List.mem_filter.mp this).1
          exact List.mem_range.mp hmr)
    rw [hvalm, hcanproj]

theorem C6_witness :
    (rowAt ((CompanyDedupEngine.init {}).process [some ("@@@").data]) 0).canonical_name =
      (rowAt ((CompanyDedupEngine.init {}).process [some ("@@@").data])
        (((List.range 1).filter (fun m =>
          (rowAt ((CompanyDedupEngine.init {}).process [some ("@@@").data]) m).cluster_id =
          (rowAt ((CompanyDedupEngine.init {}).process [some ("@@@").data]) 0).cluster_id)).headD 0)
        ).normalized_name :=
  (C6_canonical_selection {} [some ("@@@").data] 0 _ _ _ (by decide) rfl rfl rfl).1 (by decide)
